import Mathlib

/-! # iotex-core: key-value store, block model and chain manager

A shallow embedding of `db/db.go` (the in-memory `memKVStore` and the
bolt-backed `boltDB`), of the Byzantine validator of
`simulator/consensus_sim_server.go` and of the function `transfers` of
`cli/iotc/cmd/transfers.go`, and a model of the blocks and of the chain manager of
the `blockchain` package, whose sources are not available and which is modelled
from the specification. All definitions come first; the properties of the
key-value stores, of the blocks and of the chain manager, of the simulator and of
the command-line client follow.

Conventions of the embedding:

* a Go `[]byte` and a Go `string` are modelled by their contents, a list of
  bytes; a `nil` slice and an empty slice both have the contents `[]`;
* a Go `error` is `Option Error`, `none` being `nil`;
* a method that mutates its receiver returns the new receiver next to its
  Go result;
* the stores are modelled once started (`Start` has opened the database).
-/

set_option linter.dupNamespace false

namespace IotexCore

/-- One byte. -/
abbrev Byte := UInt8

/-- Contents of a Go byte slice or string. -/
abbrev Bytes := List Byte

namespace db

/-- Context attached by `errors.Wrap` / `errors.Wrapf` at the call sites of `db.go`. -/
inductive WrapMsg
  /-- The text "batch put <k, v> size not match". -/
  | sizeNotMatch
  /-- The text "key = %x" with the queried key. -/
  | key (k : Bytes)
  /-- The text "bucket = %s" with the namespace. -/
  | bucket (ns : Bytes)
  /-- The text "force fail to test DB rollback". -/
  | forceFail
  deriving DecidableEq, Repr

/-- Error values that `db.go` can return: its own three sentinels, the sentinels of
the bolt library that its calls can produce, and wrapped errors. -/
inductive Error
  /-- Sentinel `ErrInvalidDB` of `db.go`. -/
  | ErrInvalidDB
  /-- Sentinel `ErrNotExist` of `db.go`. -/
  | ErrNotExist
  /-- Sentinel `ErrAlreadyExist` of `db.go`. -/
  | ErrAlreadyExist
  /-- Sentinel `bolt.ErrBucketNotFound`. -/
  | ErrBucketNotFound
  /-- Sentinel `bolt.ErrBucketNameRequired`. -/
  | ErrBucketNameRequired
  /-- Sentinel `bolt.ErrKeyRequired`. -/
  | ErrKeyRequired
  /-- Sentinel `bolt.ErrKeyTooLarge`. -/
  | ErrKeyTooLarge
  /-- Sentinel `bolt.ErrValueTooLarge`. -/
  | ErrValueTooLarge
  /-- Result of `errors.Wrap(cause, msg)`. -/
  | Wrap (cause : Error) (msg : WrapMsg)
  deriving DecidableEq, Repr

/-- The root cause of an error, as `errors.Cause` computes it. -/
def Error.Cause : Error → Error
  | .Wrap cause _ => cause.Cause
  | e => e

/-- The constant `keyDelimiter = "."`. -/
def keyDelimiter : Bytes := [46]

/-- A mapping from byte strings to values, the contents of a `sync.Map` or of a bucket. -/
abbrev KV (α : Type) := Bytes → Option α

/-- The mapping with no entry. -/
def KV.empty {α : Type} : KV α := fun _ => none

/-- Store `v` under `k`, replacing what was there. -/
def KV.store {α : Type} (m : KV α) (k : Bytes) (v : α) : KV α :=
  fun k2 => if k2 = k then some v else m k2

/-- Remove the entry under `k`, if any. -/
def KV.erase {α : Type} (m : KV α) (k : Bytes) : KV α :=
  fun k2 => if k2 = k then none else m k2

/-! ## The in-memory store -/

/-- The in-memory store: its `data` field, a `sync.Map` from string keys to byte slices. -/
structure memKVStore where
  /-- The field `data`. -/
  data : KV Bytes

namespace memKVStore

/-- Constructor `NewMemKVStore`. -/
def NewMemKVStore : memKVStore := ⟨KV.empty⟩

/-- Method `memKVStore.Put`. -/
def Put (m : memKVStore) (ns : Bytes) (key value : Bytes) : memKVStore × Option Error :=
  (⟨m.data.store (ns ++ keyDelimiter ++ key) value⟩, none)

/-- The loop of `memKVStore.BatchPut`, run once the lengths are known to agree. -/
def BatchPut.loop (ns : Bytes) : List Bytes → List Bytes → KV Bytes → KV Bytes
  | k :: ks, v :: vs, d => BatchPut.loop ns ks vs (d.store (ns ++ keyDelimiter ++ k) v)
  | _, _, d => d

/-- Method `memKVStore.BatchPut`. -/
def BatchPut (m : memKVStore) (ns : Bytes) (key value : List Bytes) :
    memKVStore × Option Error :=
  if key.length ≠ value.length then
    (m, some (.Wrap .ErrInvalidDB .sizeNotMatch))
  else
    (⟨BatchPut.loop ns key value m.data⟩, none)

/-- Method `memKVStore.PutIfNotExists`. -/
def PutIfNotExists (m : memKVStore) (ns : Bytes) (key value : Bytes) :
    memKVStore × Option Error :=
  match m.data (ns ++ keyDelimiter ++ key) with
  | none => (⟨m.data.store (ns ++ keyDelimiter ++ key) value⟩, none)
  | some _ => (m, some .ErrAlreadyExist)

/-- Method `memKVStore.Get`. The loaded interface value is `nil` exactly when the key is
absent: a stored slice is a non-nil interface value, also when the slice is `nil`. -/
def Get (m : memKVStore) (ns : Bytes) (key : Bytes) : Option Bytes × Option Error :=
  match m.data (ns ++ keyDelimiter ++ key) with
  | some value => (some value, none)
  | none => (none, some (.Wrap .ErrNotExist (.key key)))

/-- Method `memKVStore.Delete`. -/
def Delete (m : memKVStore) (ns : Bytes) (key : Bytes) : memKVStore × Option Error :=
  (⟨m.data.erase (ns ++ keyDelimiter ++ key)⟩, none)

end memKVStore

/-! ## The bolt library, as `db.go` uses it

The database engine is an external library (`github.com/boltdb/bolt`). Its
transactions are modelled on a map of buckets, each bucket a map from keys to
values: `db.go` creates buckets at the top level only and stores plain key/value
pairs in them. The errors are those that the library documents for the calls made:
`ErrBucketNameRequired` for an empty bucket name, `ErrKeyRequired`, `ErrKeyTooLarge`
and `ErrValueTooLarge` for `Put`. A stored value of length zero is a record:
`bucket.Get` returns `nil` only for a key that is absent. -/

namespace bolt

/-- The constant `bolt.MaxKeySize`. -/
def MaxKeySize : Nat := 32768

/-- The constant `bolt.MaxValueSize`. -/
def MaxValueSize : Nat := 2 ^ 31 - 2

/-- The buckets that a transaction sees (and, when writable, has written so far). -/
structure Tx where
  /-- Top-level buckets by name. -/
  buckets : KV (KV Bytes)

/-- Lookup `tx.Bucket(name)`: the bucket, or `none` for Go's `nil`. -/
def Tx.Bucket (tx : Tx) (name : Bytes) : Option (KV Bytes) := tx.buckets name

/-- Call `tx.CreateBucketIfNotExists(name)`: an empty name is refused, an existing
bucket is kept, a missing one is created empty. The bucket handle is its name. -/
def Tx.CreateBucketIfNotExists (tx : Tx) (name : Bytes) : Tx × Option Error :=
  if name = [] then (tx, some .ErrBucketNameRequired)
  else
    match tx.buckets name with
    | some _ => (tx, none)
    | none => (⟨tx.buckets.store name KV.empty⟩, none)

/-- Call `bucket.Put(key, value)` on the bucket `name` of a writable transaction: the
key must be non-empty and key and value within the size limits. In `db.go` the handle
always comes from `CreateBucketIfNotExists`, so the bucket is there; the last branch
only makes the function total. -/
def Tx.bucketPut (tx : Tx) (name : Bytes) (key value : Bytes) : Tx × Option Error :=
  if key.length = 0 then (tx, some .ErrKeyRequired)
  else if key.length > MaxKeySize then (tx, some .ErrKeyTooLarge)
  else if value.length > MaxValueSize then (tx, some .ErrValueTooLarge)
  else
    match tx.buckets name with
    | some bkt => (⟨tx.buckets.store name (bkt.store key value)⟩, none)
    | none => (tx, some .ErrBucketNotFound)

/-- Call `bucket.Get(key)` on the bucket `name`: the value, or `none` for Go's `nil`. -/
def Tx.bucketGet (tx : Tx) (name : Bytes) (key : Bytes) : Option Bytes :=
  match tx.buckets name with
  | some bkt => bkt key
  | none => none

/-- Call `bucket.Delete(key)` on the bucket `name`: a missing key is not an error. In
`db.go` the handle always comes from a successful `tx.Bucket`; the last branch only
makes the function total. -/
def Tx.bucketDelete (tx : Tx) (name : Bytes) (key : Bytes) : Tx × Option Error :=
  match tx.buckets name with
  | some bkt => (⟨tx.buckets.store name (bkt.erase key)⟩, none)
  | none => (tx, some .ErrBucketNotFound)

/-- An open database: the committed buckets. -/
structure DB where
  /-- Committed top-level buckets by name. -/
  buckets : KV (KV Bytes)

/-- Call `db.Update(fn)`: run `fn` in a writable transaction; commit when it returns
`nil`, roll back and return its error otherwise. -/
def DB.Update (d : DB) (fn : Tx → Tx × Option Error) : DB × Option Error :=
  match fn ⟨d.buckets⟩ with
  | (tx, none) => (⟨tx.buckets⟩, none)
  | (_, some err) => (d, some err)

/-- Call `db.View(fn)`: run `fn` in a read-only transaction and return its results. -/
def DB.View {α : Type} (d : DB) (fn : Tx → α × Option Error) : α × Option Error :=
  fn ⟨d.buckets⟩

end bolt

/-! ## The durable store -/

/-- The durable store, once started: its field `db`. -/
structure boltDB where
  /-- The field `db`. -/
  db : bolt.DB

namespace boltDB

/-- A started store on a fresh file. -/
def NewBoltDB : boltDB := ⟨⟨KV.empty⟩⟩

/-- Lift the result of `db.Update` to the store. -/
def ofUpdate (r : bolt.DB × Option Error) : boltDB × Option Error := (⟨r.1⟩, r.2)

/-- Method `boltDB.Put`. -/
def Put (b : boltDB) (ns : Bytes) (key value : Bytes) : boltDB × Option Error :=
  ofUpdate <| b.db.Update fun tx =>
    match tx.CreateBucketIfNotExists ns with
    | (tx, some err) => (tx, some err)
    | (tx, none) => tx.bucketPut ns key value

/-- The loop of `boltDB.BatchPut`, run once the lengths are known to agree. -/
def BatchPut.loop (ns : Bytes) : List Bytes → List Bytes → bolt.Tx → bolt.Tx × Option Error
  | k :: ks, v :: vs, tx =>
    match tx.bucketPut ns k v with
    | (tx, some err) => (tx, some err)
    | (tx, none) => BatchPut.loop ns ks vs tx
  | _, _, tx => (tx, none)

/-- Method `boltDB.BatchPut`. -/
def BatchPut (b : boltDB) (ns : Bytes) (key value : List Bytes) : boltDB × Option Error :=
  ofUpdate <| b.db.Update fun tx =>
    match tx.CreateBucketIfNotExists ns with
    | (tx, some err) => (tx, some err)
    | (tx, none) =>
      if key.length ≠ value.length then
        (tx, some (.Wrap .ErrInvalidDB .sizeNotMatch))
      else
        BatchPut.loop ns key value tx

/-- Method `boltDB.PutIfNotExists`. -/
def PutIfNotExists (b : boltDB) (ns : Bytes) (key value : Bytes) : boltDB × Option Error :=
  ofUpdate <| b.db.Update fun tx =>
    match tx.CreateBucketIfNotExists ns with
    | (tx, some err) => (tx, some err)
    | (tx, none) =>
      match tx.bucketGet ns key with
      | none => tx.bucketPut ns key value
      | some _ => (tx, some .ErrAlreadyExist)

/-- Method `boltDB.Get`. -/
def Get (b : boltDB) (ns : Bytes) (key : Bytes) : Option Bytes × Option Error :=
  match (b.db.View fun tx =>
      match tx.Bucket ns with
      | none => ((none : Option Bytes), some (Error.Wrap .ErrBucketNotFound (.bucket ns)))
      | some bkt => (bkt key, none)) with
  | (_, some err) => (none, some err)
  | (none, none) => (none, some (.Wrap .ErrNotExist (.key key)))
  | (some value, none) => (some value, none)

/-- Method `boltDB.Delete`. -/
def Delete (b : boltDB) (ns : Bytes) (key : Bytes) : boltDB × Option Error :=
  ofUpdate <| b.db.Update fun tx =>
    match tx.Bucket ns with
    | none => (tx, some (.Wrap .ErrBucketNotFound (.bucket ns)))
    | some _ => tx.bucketDelete ns key

/-- The loop of `boltDB.batchPutForceFail`: `i` is the loop index, `n` is `len(key)`. -/
def batchPutForceFail.loop (ns : Bytes) (n : Nat) :
    Nat → List Bytes → List Bytes → bolt.Tx → bolt.Tx × Option Error
  | i, k :: ks, v :: vs, tx =>
    match tx.bucketPut ns k v with
    | (tx, some err) => (tx, some err)
    | (tx, none) =>
      if i = n - 1 then (tx, some (.Wrap .ErrInvalidDB .forceFail))
      else batchPutForceFail.loop ns n (i + 1) ks vs tx
  | _, _, _, tx => (tx, none)

/-- Method `boltDB.batchPutForceFail`. -/
def batchPutForceFail (b : boltDB) (ns : Bytes) (key value : List Bytes) :
    boltDB × Option Error :=
  ofUpdate <| b.db.Update fun tx =>
    match tx.CreateBucketIfNotExists ns with
    | (tx, some err) => (tx, some err)
    | (tx, none) =>
      if key.length ≠ value.length then
        (tx, some (.Wrap .ErrInvalidDB .sizeNotMatch))
      else
        batchPutForceFail.loop ns key.length 0 key value tx

/-- The record stored for `(ns, key)`, if any. -/
def lookup (b : boltDB) (ns key : Bytes) : Option Bytes :=
  match b.db.buckets ns with
  | some bkt => bkt key
  | none => none

/-- State invariant of an open bolt database: no bucket has the empty name (bolt
refuses to create one). -/
def wellFormed (b : boltDB) : Prop := b.db.buckets [] = none

end boltDB

end db

/-! ## Blocks and actions

The `blockchain` and `action` packages are not among the sources; only the tests of
the chain manager are. The definitions of this part follow the specification. The
digest is a parameter `H` of every definition that hashes. -/

namespace blockchain

/-- Modelled from the spec: the constant `common.ZeroHash32B`, missing from the sources;
the all-zero 32-byte value. -/
def ZeroHash32B : Bytes := List.replicate 32 0

/-- Modelled from the spec: the type of addresses, missing from the sources; "a printable
textual account identifier plus a public key". -/
structure Address where
  /-- The textual identifier. -/
  RawAddress : Bytes
  /-- The public key. -/
  PublicKey : Bytes
  deriving DecidableEq, Repr

/-- Modelled from the spec: the type `action.Transfer`, missing from the sources, with
the fields of the data model. -/
structure Transfer where
  /-- Field `nonce`. -/
  nonce : Nat
  /-- Field `amount`, a non-negative integer. -/
  amount : Nat
  /-- Field `sender`. -/
  sender : Address
  /-- Field `recipient`. -/
  recipient : Address
  /-- Field `payload`. -/
  payload : Bytes
  /-- Field `signature`. -/
  signature : Bytes
  /-- Field `sender_pubkey`. -/
  senderPubkey : Bytes
  /-- Field `is_coinbase`. -/
  isCoinbase : Bool
  deriving DecidableEq, Repr

/-- Modelled from the spec: the type `action.Vote`, missing from the sources, with the
fields of the data model. -/
structure Vote where
  /-- Field `nonce`. -/
  nonce : Nat
  /-- Field `voter_pubkey`. -/
  voterPubkey : Bytes
  /-- Field `votee_pubkey`, empty for an unvote. -/
  voteePubkey : Bytes
  /-- Field `signature`. -/
  signature : Bytes
  deriving DecidableEq, Repr

/-- Modelled from the spec: the type `Block`, missing from the sources: the header
fields of the data model, then the ordered transfers and votes. -/
structure Block where
  /-- Header field `version`. -/
  version : Nat
  /-- Header field `height`. -/
  height : Nat
  /-- Header field `timestamp`. -/
  timestamp : Nat
  /-- Header field `prev_hash`. -/
  prevHash : Bytes
  /-- Header field `tx_root`. -/
  txRoot : Bytes
  /-- Header field `state_root`. -/
  stateRoot : Bytes
  /-- Header field `producer_pubkey`. -/
  producerPubkey : Bytes
  /-- Header field `producer_sig`. -/
  producerSig : Bytes
  /-- The transfers, in order. -/
  Transfers : List Transfer
  /-- The votes, in order. -/
  Votes : List Vote
  deriving DecidableEq, Repr

/-! ### Canonical encoding: field-ordered, length-prefixed -/

/-- Modelled from the spec: the encoding of an unsigned integer in the canonical form,
missing from the sources: base-128 digits, least significant first, the high bit set on
every byte but the last. The first argument bounds the number of digits. -/
def putUvarintAux : Nat → Nat → Bytes
  | 0, n => [UInt8.ofNat n]
  | fuel + 1, n =>
    if n < 128 then [UInt8.ofNat n]
    else UInt8.ofNat (n % 128 + 128) :: putUvarintAux fuel (n / 128)

/-- Modelled from the spec: the encoding of an unsigned integer, missing from the
sources; see `putUvarintAux`. -/
def putUvarint (n : Nat) : Bytes := putUvarintAux n n

/-- Modelled from the spec: the decoding of an unsigned integer, missing from the
sources; returns the number and the bytes that follow it. -/
def getUvarint : Bytes → Option (Nat × Bytes)
  | [] => none
  | b :: rest =>
    if b.toNat < 128 then some (b.toNat, rest)
    else
      match getUvarint rest with
      | some (m, rest2) => some (b.toNat - 128 + 128 * m, rest2)
      | none => none

/-- Modelled from the spec: the encoding of a byte string, missing from the sources:
its length, then its bytes ("length-prefixed"). -/
def putBytes (bs : Bytes) : Bytes := putUvarint bs.length ++ bs

/-- Modelled from the spec: the decoding of a byte string, missing from the sources. -/
def getBytes (bs : Bytes) : Option (Bytes × Bytes) :=
  match getUvarint bs with
  | some (n, rest) => if rest.length < n then none else some (rest.take n, rest.drop n)
  | none => none

/-- Modelled from the spec: the encoding of a boolean, missing from the sources: one
byte, 1 or 0. -/
def putBool (b : Bool) : Bytes := [if b then 1 else 0]

/-- Modelled from the spec: the decoding of a boolean, missing from the sources. -/
def getBool : Bytes → Option (Bool × Bytes)
  | b :: rest => if b = 1 then some (true, rest) else if b = 0 then some (false, rest) else none
  | [] => none

/-- Modelled from the spec: the encoding of the elements of a list one after the other,
missing from the sources. -/
def putItems {α : Type} (put : α → Bytes) : List α → Bytes
  | [] => []
  | x :: xs => put x ++ putItems put xs

/-- Modelled from the spec: the decoding of `n` elements one after the other, missing
from the sources. -/
def getItems {α : Type} (get : Bytes → Option (α × Bytes)) : Nat → Bytes → Option (List α × Bytes)
  | 0, bs => some ([], bs)
  | n + 1, bs =>
    match get bs with
    | some (x, rest) =>
      match getItems get n rest with
      | some (xs, rest2) => some (x :: xs, rest2)
      | none => none
    | none => none

/-- Modelled from the spec: the encoding of an ordered list, missing from the sources:
the number of elements, then the elements. -/
def putList {α : Type} (put : α → Bytes) (xs : List α) : Bytes :=
  putUvarint xs.length ++ putItems put xs

/-- Modelled from the spec: the decoding of an ordered list, missing from the sources. -/
def getList {α : Type} (get : Bytes → Option (α × Bytes)) (bs : Bytes) :
    Option (List α × Bytes) :=
  match getUvarint bs with
  | some (n, rest) => getItems get n rest
  | none => none

/-- Modelled from the spec: the encoding of an address, missing from the sources. -/
def Address.put (a : Address) : Bytes := putBytes a.RawAddress ++ putBytes a.PublicKey

/-- Modelled from the spec: the decoding of an address, missing from the sources. -/
def Address.get (bs : Bytes) : Option (Address × Bytes) :=
  match getBytes bs with
  | some (raw, bs) =>
    match getBytes bs with
    | some (pk, bs) => some (⟨raw, pk⟩, bs)
    | none => none
  | none => none

/-- Modelled from the spec: the canonical encoding of a transfer "excluding the
signature", missing from the sources; the input of the transfer hash. -/
def Transfer.putUnsigned (t : Transfer) : Bytes :=
  putUvarint t.nonce ++ putUvarint t.amount ++ t.sender.put ++ t.recipient.put ++
    putBytes t.payload ++ putBytes t.senderPubkey ++ putBool t.isCoinbase

/-- Modelled from the spec: the canonical encoding of a transfer, missing from the
sources: the fields in the order of the data model. -/
def Transfer.put (t : Transfer) : Bytes :=
  putUvarint t.nonce ++ putUvarint t.amount ++ t.sender.put ++ t.recipient.put ++
    putBytes t.payload ++ putBytes t.signature ++ putBytes t.senderPubkey ++
    putBool t.isCoinbase

/-- Modelled from the spec: the decoding of a transfer, missing from the sources. -/
def Transfer.get (bs : Bytes) : Option (Transfer × Bytes) :=
  match getUvarint bs with
  | none => none
  | some (nonce, bs) =>
  match getUvarint bs with
  | none => none
  | some (amount, bs) =>
  match Address.get bs with
  | none => none
  | some (sender, bs) =>
  match Address.get bs with
  | none => none
  | some (recipient, bs) =>
  match getBytes bs with
  | none => none
  | some (payload, bs) =>
  match getBytes bs with
  | none => none
  | some (signature, bs) =>
  match getBytes bs with
  | none => none
  | some (senderPubkey, bs) =>
  match getBool bs with
  | none => none
  | some (isCoinbase, bs) =>
    some (⟨nonce, amount, sender, recipient, payload, signature, senderPubkey, isCoinbase⟩, bs)

/-- Modelled from the spec: the method `Transfer.Hash`, missing from the sources: "the
32-byte digest of the canonical encoding excluding the signature". -/
def Transfer.Hash (H : Bytes → Bytes) (t : Transfer) : Bytes := H t.putUnsigned

/-- Modelled from the spec: the canonical encoding of a vote without its signature,
missing from the sources; the input of the vote hash. -/
def Vote.putUnsigned (v : Vote) : Bytes :=
  putUvarint v.nonce ++ putBytes v.voterPubkey ++ putBytes v.voteePubkey

/-- Modelled from the spec: the canonical encoding of a vote, missing from the sources:
the fields in the order of the data model. -/
def Vote.put (v : Vote) : Bytes :=
  putUvarint v.nonce ++ putBytes v.voterPubkey ++ putBytes v.voteePubkey ++
    putBytes v.signature

/-- Modelled from the spec: the decoding of a vote, missing from the sources. -/
def Vote.get (bs : Bytes) : Option (Vote × Bytes) :=
  match getUvarint bs with
  | none => none
  | some (nonce, bs) =>
  match getBytes bs with
  | none => none
  | some (voter, bs) =>
  match getBytes bs with
  | none => none
  | some (votee, bs) =>
  match getBytes bs with
  | none => none
  | some (signature, bs) => some (⟨nonce, voter, votee, signature⟩, bs)

/-- Modelled from the spec: the method `Vote.Hash`, missing from the sources: "hash
analogous to Transfer". -/
def Vote.Hash (H : Bytes → Bytes) (v : Vote) : Bytes := H v.putUnsigned

/-- Modelled from the spec: the bytes that the block hash digests, missing from the
sources: the header "including tx_root and state_root but excluding producer_sig". -/
def Block.putHeaderUnsigned (b : Block) : Bytes :=
  putUvarint b.version ++ putUvarint b.height ++ putUvarint b.timestamp ++
    putBytes b.prevHash ++ putBytes b.txRoot ++ putBytes b.stateRoot ++
    putBytes b.producerPubkey

/-- Modelled from the spec: the method `Block.Serialize`, missing from the sources: the
header fields in order, then the transfers, then the votes. -/
def Block.Serialize (b : Block) : Bytes :=
  putUvarint b.version ++ putUvarint b.height ++ putUvarint b.timestamp ++
    putBytes b.prevHash ++ putBytes b.txRoot ++ putBytes b.stateRoot ++
    putBytes b.producerPubkey ++ putBytes b.producerSig ++
    putList Transfer.put b.Transfers ++ putList Vote.put b.Votes

/-- Modelled from the spec: the decoding of a block followed by other bytes, missing
from the sources. -/
def Block.get (bs : Bytes) : Option (Block × Bytes) :=
  match getUvarint bs with
  | none => none
  | some (version, bs) =>
  match getUvarint bs with
  | none => none
  | some (height, bs) =>
  match getUvarint bs with
  | none => none
  | some (timestamp, bs) =>
  match getBytes bs with
  | none => none
  | some (prevHash, bs) =>
  match getBytes bs with
  | none => none
  | some (txRoot, bs) =>
  match getBytes bs with
  | none => none
  | some (stateRoot, bs) =>
  match getBytes bs with
  | none => none
  | some (producerPubkey, bs) =>
  match getBytes bs with
  | none => none
  | some (producerSig, bs) =>
  match getList Transfer.get bs with
  | none => none
  | some (transfers, bs) =>
  match getList Vote.get bs with
  | none => none
  | some (votes, bs) =>
    some (⟨version, height, timestamp, prevHash, txRoot, stateRoot, producerPubkey,
      producerSig, transfers, votes⟩, bs)

/-- Modelled from the spec: the method `Block.Deserialize`, missing from the sources:
decodes a block and fails (`none`) on malformed input or on bytes left over. -/
def Block.Deserialize (data : Bytes) : Option Block :=
  match Block.get data with
  | some (b, []) => some b
  | _ => none

/-- Modelled from the spec: the method `Block.HashBlock`, missing from the sources: the
digest of the header without the producer signature. -/
def Block.HashBlock (H : Bytes → Bytes) (b : Block) : Bytes := H b.putHeaderUnsigned

/-- Modelled from the spec: one level of the Merkle fold, missing from the sources:
hashes are combined pairwise, the last one with itself on an odd level. -/
def merkleLevel (H : Bytes → Bytes) : List Bytes → List Bytes
  | a :: b :: rest => H (a ++ b) :: merkleLevel H rest
  | [a] => [H (a ++ a)]
  | [] => []

/-- Modelled from the spec: the Merkle fold, missing from the sources, "until one hash
remains"; the root of the empty list is the zero hash. The first argument bounds the
number of levels. -/
def merkleFold (H : Bytes → Bytes) : Nat → List Bytes → Bytes
  | _, [] => ZeroHash32B
  | _, [h] => h
  | 0, h :: _ => h
  | fuel + 1, l => merkleFold H fuel (merkleLevel H l)

/-- Modelled from the spec: the Merkle root of a list of leaves, missing from the
sources; the length of the list is more levels than the fold needs. -/
def merkleRoot (H : Bytes → Bytes) (leaves : List Bytes) : Bytes :=
  merkleFold H leaves.length leaves

/-- Modelled from the spec: the method `Block.TxRoot`, missing from the sources: the
Merkle root recomputed over the action hashes, transfers first, votes second. -/
def Block.TxRoot (H : Bytes → Bytes) (b : Block) : Bytes :=
  merkleRoot H (b.Transfers.map (Transfer.Hash H) ++ b.Votes.map (Vote.Hash H))

/-- Modelled from the spec: the method `Block.Height`, missing from the sources. -/
def Block.Height (b : Block) : Nat := b.height

/-! ### The chain manager -/

/-- Modelled from the spec: the reasons of an *InvalidBlock* error, missing from the
sources. -/
inductive InvalidReason
  | height | prev_hash | tx_root | signature | nonce | balance | replay
  deriving DecidableEq, Repr

/-- Modelled from the spec: the error kinds of the chain manager, missing from the
sources. A backend failure wraps the error of the key-value store. -/
inductive ChainError
  | InvalidArg
  | NotFound
  | AlreadyExists
  | InvalidBlock (reason : InvalidReason)
  | StateError
  | BackendFailure (err : db.Error)
  deriving DecidableEq, Repr

/-- Modelled from the spec: the interface `Validator`, missing from the sources: the
pluggable capability `validate(block, tip_height, tip_hash) -> Result`, `none` being
success. -/
abbrev Validator := Block → Nat → Bytes → Option ChainError

/-- Modelled from the spec: what the chain manager is configured with and the
collaborators it calls, all missing from the sources. `σ` is the state of the state
factory. -/
structure Config (σ : Type) where
  /-- The digest chosen at genesis. -/
  H : Bytes → Bytes
  /-- Version of the genesis block. -/
  genesisVersion : Nat
  /-- Timestamp of the genesis block. -/
  genesisTimestamp : Nat
  /-- The hard-coded transfers of the genesis block. -/
  genesisTransfers : List Transfer
  /-- The hard-coded votes of the genesis block. -/
  genesisVotes : List Vote
  /-- Rule V5: the producer signature of the block verifies. -/
  verifyProducer : Block → Bool
  /-- Rule V6 for one transfer: its signature verifies and resolves to the sender. -/
  verifyTransfer : Transfer → Bool
  /-- Rule V6 for one vote: its signature verifies and resolves to the voter. -/
  verifyVote : Vote → Bool
  /-- Rule V7: the dry run of the block against the state factory; `none` is success. -/
  dryRun : σ → Block → Option InvalidReason
  /-- Step 4 of the commit protocol: apply the block to the state factory. -/
  applyBlock : σ → Block → Option σ
  /-- The address that a public key resolves to. -/
  addressOf : Bytes → Bytes

/-- Modelled from the spec: the namespace `blocks` of the persisted layout. -/
def blockNS : Bytes := [98, 108, 111, 99, 107, 115]

/-- Modelled from the spec: the namespace `height2hash` of the persisted layout. -/
def heightToHashNS : Bytes := [104, 101, 105, 103, 104, 116, 50, 104, 97, 115, 104]

/-- Modelled from the spec: the namespace `hash2height` of the persisted layout. -/
def hashToHeightNS : Bytes := [104, 97, 115, 104, 50, 104, 101, 105, 103, 104, 116]

/-- Modelled from the spec: the namespace `action2block` of the persisted layout. -/
def actionToBlockNS : Bytes := [97, 99, 116, 105, 111, 110, 50, 98, 108, 111, 99, 107]

/-- Modelled from the spec: the namespace `meta` of the persisted layout. -/
def metaNS : Bytes := [109, 101, 116, 97]

/-- Modelled from the spec: the key `tip_height` of the namespace `meta`. -/
def tipHeightKey : Bytes := [116, 105, 112, 95, 104, 101, 105, 103, 104, 116]

/-- Modelled from the spec: the key `tip_hash` of the namespace `meta`. -/
def tipHashKey : Bytes := [116, 105, 112, 95, 104, 97, 115, 104]

/-- Modelled from the spec: the namespace `from:<addr>` of the persisted layout. -/
def fromNS (addr : Bytes) : Bytes := [102, 114, 111, 109, 58] ++ addr

/-- Modelled from the spec: the namespace `to:<addr>` of the persisted layout. -/
def toNS (addr : Bytes) : Bytes := [116, 111, 58] ++ addr

/-- Modelled from the spec: the big-endian encoding of an unsigned integer on `w` bytes,
missing from the sources. -/
def putBigEndian : Nat → Nat → Bytes
  | 0, _ => []
  | w + 1, n => putBigEndian w (n / 256) ++ [UInt8.ofNat (n % 256)]

/-- Modelled from the spec: the value of a big-endian byte string, missing from the
sources. -/
def getBigEndian (bs : Bytes) : Nat := bs.foldl (fun acc b => acc * 256 + b.toNat) 0

/-- Modelled from the spec: the key of a height, "u64 big-endian", missing from the
sources. -/
def putUint64 (n : Nat) : Bytes := putBigEndian 8 (n % 2 ^ 64)

/-- Modelled from the spec: the height that an 8-byte big-endian string encodes, missing
from the sources. -/
def getUint64 (bs : Bytes) : Option Nat :=
  if bs.length = 8 then some (getBigEndian bs) else none

/-- Modelled from the spec: one write of the commit protocol, missing from the sources:
the upsert of a record, or the append of an action hash to a per-address list "stored as
length-prefixed concatenations". -/
inductive IndexOp
  | put (ns key value : Bytes)
  | append (ns key item : Bytes)
  deriving DecidableEq, Repr

/-- Modelled from the spec: the namespace that a write goes to. -/
def IndexOp.ns : IndexOp → Bytes
  | .put ns _ _ => ns
  | .append ns _ _ => ns

/-- Modelled from the spec: one write of the commit protocol carried out on the
key-value store, missing from the sources. -/
def applyOp (kv : db.boltDB) : IndexOp → db.boltDB × Option db.Error
  | .put ns key value => kv.Put ns key value
  | .append ns key item =>
    match kv.Get ns key with
    | (some old, _) => kv.Put ns key (old ++ putBytes item)
    | (none, _) => kv.Put ns key (putBytes item)

/-- Modelled from the spec: the writes of the commit protocol carried out in order,
missing from the sources; the first failure stops them. -/
def applyOps (kv : db.boltDB) : List IndexOp → db.boltDB × Option db.Error
  | [] => (kv, none)
  | op :: ops =>
    match applyOp kv op with
    | (kv2, none) => applyOps kv2 ops
    | (kv2, some err) => (kv2, some err)

/-- Modelled from the spec: the index writes for one transfer, missing from the sources:
`action_hash → block_hash`, and the action hash appended to the from- and to- lists. A
coinbase transfer has no real sender and gets no from- entry. -/
def transferOps (H : Bytes → Bytes) (blockHash : Bytes) (t : Transfer) : List IndexOp :=
  [IndexOp.put actionToBlockNS (t.Hash H) blockHash] ++
  (if t.isCoinbase then []
   else [IndexOp.append (fromNS t.sender.RawAddress) t.sender.RawAddress (t.Hash H)]) ++
  [IndexOp.append (toNS t.recipient.RawAddress) t.recipient.RawAddress (t.Hash H)]

/-- Modelled from the spec: the index writes for one vote, missing from the sources. An
unvote has no votee and gets no to- entry. -/
def voteOps (H : Bytes → Bytes) (addressOf : Bytes → Bytes) (blockHash : Bytes) (v : Vote) :
    List IndexOp :=
  [IndexOp.put actionToBlockNS (v.Hash H) blockHash,
   IndexOp.append (fromNS (addressOf v.voterPubkey)) (addressOf v.voterPubkey) (v.Hash H)] ++
  (if v.voteePubkey = [] then []
   else [IndexOp.append (toNS (addressOf v.voteePubkey)) (addressOf v.voteePubkey) (v.Hash H)])

/-- Modelled from the spec: step 3 of the commit protocol, missing from the sources: the
block bytes under the block hash, `height → hash`, `hash → height`, then the action
indexes. -/
def blockOps {σ : Type} (P : Config σ) (blk : Block) : List IndexOp :=
  [IndexOp.put blockNS (blk.HashBlock P.H) blk.Serialize,
   IndexOp.put heightToHashNS (putUint64 blk.height) (blk.HashBlock P.H),
   IndexOp.put hashToHeightNS (blk.HashBlock P.H) (putUint64 blk.height)] ++
  (blk.Transfers.map (transferOps P.H (blk.HashBlock P.H))).flatten ++
  (blk.Votes.map (voteOps P.H P.addressOf (blk.HashBlock P.H))).flatten

/-- Modelled from the spec: step 5 of the commit protocol on the store, missing from the
sources: the tip written under the namespace `meta`. -/
def tipOps {σ : Type} (P : Config σ) (blk : Block) : List IndexOp :=
  [IndexOp.put metaNS tipHeightKey (putUint64 blk.height),
   IndexOp.put metaNS tipHashKey (blk.HashBlock P.H)]

/-- Modelled from the spec: the struct `blockchain`, the chain manager, missing from the
sources: the key-value store, the cached tip, the state factory and the validator policy
(`none` is the default validator). -/
structure blockchain (σ : Type) where
  /-- The key-value store of blocks and indexes. -/
  kv : db.boltDB
  /-- Cached height of the tip. -/
  tipHeight : Nat
  /-- Cached hash of the tip. -/
  tipHash : Bytes
  /-- The state factory. -/
  sf : σ
  /-- The injected validator, if any. -/
  validator : Option Validator

/-- Modelled from the spec: the genesis block, missing from the sources: height 0, the
zero hash as `prev_hash`, the configured actions and their Merkle root. -/
def Genesis {σ : Type} (P : Config σ) : Block :=
  let b : Block :=
    { version := P.genesisVersion, height := 0, timestamp := P.genesisTimestamp,
      prevHash := ZeroHash32B, txRoot := [], stateRoot := ZeroHash32B,
      producerPubkey := [], producerSig := [],
      Transfers := P.genesisTransfers, Votes := P.genesisVotes }
  { b with txRoot := b.TxRoot P.H }

/-- Modelled from the spec: the rules V5 to V8 of the default validator, missing from the
sources. Rule V8 looks the block hash up in the `hash → height` index. -/
def defaultValidate {σ : Type} (P : Config σ) (kv : db.boltDB) (sf : σ) (blk : Block) :
    Option ChainError :=
  if ¬ P.verifyProducer blk then some (.InvalidBlock .signature)
  else if ¬ (blk.Transfers.all fun t => t.isCoinbase || P.verifyTransfer t) then
    some (.InvalidBlock .signature)
  else if ¬ (blk.Votes.all P.verifyVote) then some (.InvalidBlock .signature)
  else
    match P.dryRun sf blk with
    | some reason => some (.InvalidBlock reason)
    | none =>
      match kv.lookup hashToHeightNS (blk.HashBlock P.H) with
      | some _ => some (.InvalidBlock .replay)
      | none => none

namespace blockchain

variable {σ : Type}

/-- The invariant of the chain manager with the default validator: the tip is a `u64`
and is recorded under the namespace `meta`, and for every height up to the tip the
indexes hold the hash of a block under the height, the height under that hash, and the
bytes of the block under that hash. -/
def Indexed (P : Config σ) (bc : blockchain σ) : Prop :=
  bc.validator = none ∧
  bc.tipHeight < 2 ^ 64 ∧
  bc.kv.lookup metaNS tipHeightKey = some (putUint64 bc.tipHeight) ∧
  bc.kv.lookup metaNS tipHashKey = some bc.tipHash ∧
  ∀ h, h ≤ bc.tipHeight → ∃ blk : Block,
    bc.kv.lookup heightToHashNS (putUint64 h) = some (blk.HashBlock P.H) ∧
    bc.kv.lookup hashToHeightNS (blk.HashBlock P.H) = some (putUint64 h) ∧
    bc.kv.lookup blockNS (blk.HashBlock P.H) = some blk.Serialize

/-- Modelled from the spec: the method `TipHeight`, missing from the sources. -/
def TipHeight (bc : blockchain σ) : Nat := bc.tipHeight

/-- Modelled from the spec: the method `TipHash`, missing from the sources. -/
def TipHash (bc : blockchain σ) : Bytes := bc.tipHash

/-- Modelled from the spec: the method `SetValidator`, missing from the sources. -/
def SetValidator (bc : blockchain σ) (v : Validator) : blockchain σ :=
  { bc with validator := some v }

/-- Modelled from the spec: the method `ValidateBlock`, missing from the sources: the
fixed rules V1 to V4 in order, then the injected validator or, by default, the rules V5
to V8. The result `none` is success. -/
def ValidateBlock (P : Config σ) (bc : blockchain σ) (blk : Block) : Option ChainError :=
  if blk.height ≠ bc.tipHeight + 1 then some (.InvalidBlock .height)
  else if blk.prevHash ≠ bc.tipHash then some (.InvalidBlock .prev_hash)
  else if blk.height ≠ 0 ∧ blk.prevHash = ZeroHash32B then some (.InvalidBlock .prev_hash)
  else if blk.txRoot ≠ blk.TxRoot P.H then some (.InvalidBlock .tx_root)
  else
    match bc.validator with
    | some v => v blk bc.tipHeight bc.tipHash
    | none => defaultValidate P bc.kv bc.sf blk

/-- Modelled from the spec: steps 2 to 5 of the commit protocol, missing from the
sources: the block and index writes, the state factory, the tip. Any failure leaves the
chain manager as it was. -/
def writeBlock (P : Config σ) (bc : blockchain σ) (blk : Block) :
    blockchain σ × Option ChainError :=
  match applyOps bc.kv (blockOps P blk) with
  | (_, some err) => (bc, some (.BackendFailure err))
  | (kv2, none) =>
    match P.applyBlock bc.sf blk with
    | none => (bc, some .StateError)
    | some sf2 =>
      match applyOps kv2 (tipOps P blk) with
      | (_, some err) => (bc, some (.BackendFailure err))
      | (kv3, none) =>
        ({ bc with kv := kv3, sf := sf2, tipHeight := blk.height,
                   tipHash := blk.HashBlock P.H }, none)

/-- Modelled from the spec: the method `CommitBlock`, missing from the sources: step 1,
the validation under the current tip, then the writes. -/
def CommitBlock (P : Config σ) (bc : blockchain σ) (blk : Block) :
    blockchain σ × Option ChainError :=
  match bc.ValidateBlock P blk with
  | some err => (bc, some err)
  | none => bc.writeBlock P blk

/-- Modelled from the spec: the method `GetHashByHeight`, missing from the sources. -/
def GetHashByHeight (bc : blockchain σ) (height : Nat) : Except ChainError Bytes :=
  match bc.kv.Get heightToHashNS (putUint64 height) with
  | (some hash, _) => .ok hash
  | (none, _) => .error .NotFound

/-- Modelled from the spec: the method `GetHeightByHash`, missing from the sources. -/
def GetHeightByHash (bc : blockchain σ) (hash : Bytes) : Except ChainError Nat :=
  match bc.kv.Get hashToHeightNS hash with
  | (some value, _) =>
    match getUint64 value with
    | some height => .ok height
    | none => .error .NotFound
  | (none, _) => .error .NotFound

/-- Modelled from the spec: the method `GetBlockByHash`, missing from the sources:
"NotFound on miss, InvalidArg on zero hash". -/
def GetBlockByHash (bc : blockchain σ) (hash : Bytes) : Except ChainError Block :=
  if hash = ZeroHash32B then .error .InvalidArg
  else
    match bc.kv.Get blockNS hash with
    | (some data, _) =>
      match Block.Deserialize data with
      | some blk => .ok blk
      | none => .error .NotFound
    | (none, _) => .error .NotFound

/-- Modelled from the spec: the method `GetBlockByHeight`, missing from the sources. -/
def GetBlockByHeight (bc : blockchain σ) (height : Nat) : Except ChainError Block :=
  match bc.GetHashByHeight height with
  | .ok hash => bc.GetBlockByHash hash
  | .error err => .error err

end blockchain

/-- Modelled from the spec: the function `CreateBlockchain`, missing from the sources:
on a store that holds a tip the chain manager is loaded from it; on first open the
genesis block is built and committed without validation. The result `none` is Go's
`nil`. -/
def CreateBlockchain {σ : Type} (P : Config σ) (kv : db.boltDB) (sf : σ) :
    Option (blockchain σ) :=
  match kv.Get metaNS tipHeightKey with
  | (some heightBytes, _) =>
    match getUint64 heightBytes, kv.Get metaNS tipHashKey with
    | some height, (some hash, _) => some ⟨kv, height, hash, sf, none⟩
    | _, _ => none
  | (none, _) =>
    match (blockchain.mk kv 0 ZeroHash32B sf none).writeBlock P (Genesis P) with
    | (bc, none) => some bc
    | (_, some _) => none

/-- Modelled from the spec: the chain managers that the life of a chain with the default
validator goes through: created on a fresh store, then blocks committed (or refused), the
chain closed and reopened from its store. The height of a block presented for commit is
a `u64`. -/
inductive Reachable {σ : Type} (P : Config σ) : blockchain σ → Prop
  | create (sf : σ) (bc : blockchain σ) :
      CreateBlockchain P db.boltDB.NewBoltDB sf = some bc → Reachable P bc
  | commit (bc : blockchain σ) (blk : Block) :
      Reachable P bc → blk.height < 2 ^ 64 → Reachable P (bc.CommitBlock P blk).1
  | reopen (bc bc2 : blockchain σ) :
      Reachable P bc → CreateBlockchain P bc.kv bc.sf = some bc2 → Reachable P bc2

/-- An example configuration of the chain manager: the digest puts the byte 1 before
its input (so it is never the zero hash), every signature verifies, the state factory
counts the blocks applied, and the genesis block has one transfer. -/
def exampleConfig : Config Nat where
  H := fun bs => 1 :: bs
  genesisVersion := 1
  genesisTimestamp := 0
  genesisTransfers := [⟨0, 10, ⟨[], []⟩, ⟨[97], [1]⟩, [], [], [], true⟩]
  genesisVotes := []
  verifyProducer := fun _ => true
  verifyTransfer := fun _ => true
  verifyVote := fun _ => true
  dryRun := fun _ _ => none
  applyBlock := fun n _ => some (n + 1)
  addressOf := id

/-- The chain of the example configuration after its first open, on a fresh store. -/
def exampleGenesisChain : blockchain Nat :=
  (CreateBlockchain exampleConfig db.boltDB.NewBoltDB 0).getD
    ⟨db.boltDB.NewBoltDB, 0, [], 0, none⟩

/-- A block of height 1 that extends the genesis block of the example chain, with one
transfer from "a" to "b". -/
def exampleBlock : Block :=
  let b : Block :=
    { version := 1, height := 1, timestamp := 5, prevHash := exampleGenesisChain.tipHash,
      txRoot := [], stateRoot := [], producerPubkey := [7], producerSig := [8],
      Transfers := [⟨1, 3, ⟨[97], [1]⟩, ⟨[98], [2]⟩, [], [9], [1], false⟩], Votes := [] }
  { b with txRoot := b.TxRoot exampleConfig.H }

end blockchain

/-! ## Batches as sequences of single writes -/

namespace db

/-- Store the values under the keys, pair by pair in index order. -/
def KV.storeAll (d : KV Bytes) : List Bytes → List Bytes → KV Bytes
  | k :: ks, v :: vs => KV.storeAll (d.store k v) ks vs
  | _, _ => d

/-- What bolt's `bucket.Put` accepts: a non-empty key within `MaxKeySize` and a value
within `MaxValueSize`. -/
def bolt.validPair (key value : Bytes) : Prop :=
  key.length ≠ 0 ∧ key.length ≤ bolt.MaxKeySize ∧ value.length ≤ bolt.MaxValueSize

/-- The sequence `Put(ns, keys[0], values[0]); ...; Put(ns, keys[n-1], values[n-1])` on
the in-memory store, as the claim about batches words it. -/
def memKVStore.putSequence (m : memKVStore) (ns : Bytes) : List Bytes → List Bytes → memKVStore
  | k :: ks, v :: vs => memKVStore.putSequence (m.Put ns k v).1 ns ks vs
  | _, _ => m

/-- The sequence `Put(ns, keys[0], values[0]); ...; Put(ns, keys[n-1], values[n-1])` on
the durable store, as the claim about batches words it: each `Put` is a transaction of
its own, and the sequence stops at the first one that fails. -/
def boltDB.putSequence (b : boltDB) (ns : Bytes) :
    List Bytes → List Bytes → boltDB × Option Error
  | k :: ks, v :: vs =>
    match b.Put ns k v with
    | (b2, none) => boltDB.putSequence b2 ns ks vs
    | (b2, some err) => (b2, some err)
  | _, _ => (b, none)

end db

/-! ## The simulator: `simulator/consensus_sim_server.go` -/

namespace simulator

/-- The struct `byzVal`: the validator of a Byzantine node, holding the validator that it
wraps. -/
structure byzVal where
  /-- The field `val`, of the interface type `blockchain.Validator`. -/
  val : blockchain.Validator

/-- Method `byzVal.Validate`. The statements that call `v.val.Validate` and invert its
result are commented out in the source; the body is `return nil`. -/
def byzVal.Validate (_v : byzVal) (_blk : blockchain.Block) (_tipHeight : Nat)
    (_tipHash : Bytes) : Option blockchain.ChainError :=
  none

end simulator

/-! ## The command-line client: `cli/iotc/cmd/transfers.go` -/

namespace cmd

/-- The Go slice expression `s[:hi]` on a string, with `hi` an `int`: a run-time panic
(`none`) unless `0 ≤ hi ≤ len(s)`. -/
def sliceTo (s : Bytes) (hi : Int) : Option Bytes :=
  if 0 ≤ hi ∧ hi ≤ (s.length : Int) then some (s.take hi.toNat) else none

/-- The loop of `transfers`: `res += fmt.Sprintf("%+v\n", t)` for each transfer in order;
`format` is what `%+v` prints for a transfer, and 10 is the newline. -/
def transfers.loop {α : Type} (format : α → Bytes) : List α → Bytes → Bytes
  | [], res => res
  | t :: ts, res => transfers.loop format ts (res ++ (format t ++ [10]))

/-- Function `transfers`. The client and the global `limit` are parameters; the client
call returns the transfers and an error. The result `none` is a run-time panic (index or
slice bounds out of range). -/
def transfers {α ε : Type} (GetTransfersByAddress : Bytes → Int → Int → List α × Option ε)
    (format : α → Bytes) (limit : Int) (args : List Bytes) : Option Bytes :=
  match args with
  | [] => none
  | addr :: _ =>
    match GetTransfersByAddress addr 0 limit with
    | (_, some _) => some []
    | (ts, none) =>
      let res := transfers.loop format ts []
      sliceTo res ((res.length : Int) - 1)

/-- The formatted lines joined by the newline, with no newline after the last one: the
result that the claim about `transfers` words. -/
def joinLines : List Bytes → Bytes
  | [] => []
  | [x] => x
  | x :: y :: rest => x ++ [10] ++ joinLines (y :: rest)

end cmd

/-! # Properties of the key-value stores -/

namespace db

theorem KV.store_same {α : Type} (m : KV α) (k : Bytes) (v : α) : m.store k v k = some v := by
  simp [KV.store]

theorem KV.store_other {α : Type} (m : KV α) (k k2 : Bytes) (v : α) (h : k2 ≠ k) :
    m.store k v k2 = m k2 := by
  simp [KV.store, h]

theorem KV.store_self {α : Type} (m : KV α) (k : Bytes) (v : α) (h : m k = some v) :
    m.store k v = m := by
  funext k2
  by_cases hk : k2 = k
  · subst hk; simp [KV.store, h]
  · simp [KV.store, hk]

theorem KV.erase_absent {α : Type} (m : KV α) (k : Bytes) (h : m k = none) :
    m.erase k = m := by
  funext k2
  by_cases hk : k2 = k
  · subst hk; simp [KV.erase, h]
  · simp [KV.erase, hk]

theorem Error.Cause_wrap (e : Error) (msg : WrapMsg) : (Error.Wrap e msg).Cause = e.Cause := rfl

/-- Whatever `db.Update` returns with an error, the database is the one before the call. -/
theorem bolt.DB.Update_rollback (d : bolt.DB) (fn : bolt.Tx → bolt.Tx × Option Error)
    (e : Error) (h : (d.Update fn).2 = some e) : (d.Update fn).1 = d := by
  unfold bolt.DB.Update at h ⊢
  split
  · rename_i heq; rw [heq] at h; simp at h
  · rfl

theorem boltDB.Get_no_bucket (b : boltDB) (ns key : Bytes) (h : b.db.buckets ns = none) :
    b.Get ns key = (none, some (.Wrap .ErrBucketNotFound (.bucket ns))) := by
  simp [boltDB.Get, bolt.DB.View, bolt.Tx.Bucket, h]

theorem boltDB.Get_absent (b : boltDB) (ns key : Bytes) (bkt : KV Bytes)
    (h : b.db.buckets ns = some bkt) (hk : bkt key = none) :
    b.Get ns key = (none, some (.Wrap .ErrNotExist (.key key))) := by
  simp [boltDB.Get, bolt.DB.View, bolt.Tx.Bucket, h, hk]

theorem boltDB.Get_present (b : boltDB) (ns key v : Bytes) (bkt : KV Bytes)
    (h : b.db.buckets ns = some bkt) (hk : bkt key = some v) :
    b.Get ns key = (some v, none) := by
  simp [boltDB.Get, bolt.DB.View, bolt.Tx.Bucket, h, hk]

theorem boltDB.Get_eq_lookup (b : boltDB) (ns key : Bytes) (v : Bytes)
    (h : b.lookup ns key = some v) : b.Get ns key = (some v, none) := by
  unfold boltDB.lookup at h
  cases hb : b.db.buckets ns with
  | none => simp [hb] at h
  | some bkt => rw [hb] at h; exact boltDB.Get_present b ns key v bkt hb h

theorem memKVStore.memGet_present (m : memKVStore) (ns key v : Bytes)
    (h : m.data (ns ++ keyDelimiter ++ key) = some v) : m.Get ns key = (some v, none) := by
  unfold memKVStore.Get; rw [h]

theorem memKVStore.memGet_absent (m : memKVStore) (ns key : Bytes)
    (h : m.data (ns ++ keyDelimiter ++ key) = none) :
    m.Get ns key = (none, some (.Wrap .ErrNotExist (.key key))) := by
  unfold memKVStore.Get; rw [h]

/-- The durable `Put`, case by case: bolt's checks in the order in which they are made,
then the write. -/
theorem boltDB.Put_eq (b : boltDB) (ns k v : Bytes) :
    b.Put ns k v =
      if ns = [] then (b, some .ErrBucketNameRequired)
      else if k.length = 0 then (b, some .ErrKeyRequired)
      else if k.length > bolt.MaxKeySize then (b, some .ErrKeyTooLarge)
      else if v.length > bolt.MaxValueSize then (b, some .ErrValueTooLarge)
      else (⟨⟨b.db.buckets.store ns (((b.db.buckets ns).getD KV.empty).store k v)⟩⟩, none) := by
  by_cases hns : ns = []
  · simp [boltDB.Put, boltDB.ofUpdate, bolt.DB.Update, bolt.Tx.CreateBucketIfNotExists, hns]
  · by_cases hk : k.length = 0
    · cases hb : b.db.buckets ns <;>
      simp [boltDB.Put, boltDB.ofUpdate, bolt.DB.Update, bolt.Tx.CreateBucketIfNotExists,
        bolt.Tx.bucketPut, hns, hb, hk]
    · by_cases hkl : k.length > bolt.MaxKeySize
      · cases hb : b.db.buckets ns <;>
        simp [boltDB.Put, boltDB.ofUpdate, bolt.DB.Update, bolt.Tx.CreateBucketIfNotExists,
          bolt.Tx.bucketPut, hns, hb, hk, hkl]
      · by_cases hvl : v.length > bolt.MaxValueSize
        · cases hb : b.db.buckets ns <;>
          simp [boltDB.Put, boltDB.ofUpdate, bolt.DB.Update, bolt.Tx.CreateBucketIfNotExists,
            bolt.Tx.bucketPut, hns, hb, hk, hkl, hvl]
        · cases hb : b.db.buckets ns with
          | none =>
            simp [boltDB.Put, boltDB.ofUpdate, bolt.DB.Update,
              bolt.Tx.CreateBucketIfNotExists, bolt.Tx.bucketPut, hns, hb, hk, hkl, hvl,
              KV.store_same]
            funext k2
            by_cases h2 : k2 = ns <;> simp [KV.store, h2]
          | some bkt =>
            simp [boltDB.Put, boltDB.ofUpdate, bolt.DB.Update,
              bolt.Tx.CreateBucketIfNotExists, bolt.Tx.bucketPut, hns, hb, hk, hkl, hvl]

/-- What the durable `Put` does when bolt accepts the name, the key and the value. -/
theorem boltDB.Put_ok (b : boltDB) (ns k v : Bytes) (hns : ns ≠ []) (hk : k ≠ [])
    (hkl : k.length ≤ bolt.MaxKeySize) (hvl : v.length ≤ bolt.MaxValueSize) :
    b.Put ns k v =
      (⟨⟨b.db.buckets.store ns (((b.db.buckets ns).getD KV.empty).store k v)⟩⟩, none) := by
  have hk0 : k.length ≠ 0 := by simpa using hk
  have hkl2 : ¬ k.length > bolt.MaxKeySize := by omega
  have hvl2 : ¬ v.length > bolt.MaxValueSize := by omega
  rw [boltDB.Put_eq]
  simp only [hns, hk0, hkl2, hvl2, if_false]

/-- When bolt refuses the name, the key or the value, the durable `Put` fails, with an
error of bolt, and leaves the store as it was. -/
theorem boltDB.Put_fail (b : boltDB) (ns k v : Bytes)
    (h : ¬ (ns ≠ [] ∧ k ≠ [] ∧ k.length ≤ bolt.MaxKeySize ∧ v.length ≤ bolt.MaxValueSize)) :
    (b.Put ns k v).2 ≠ none ∧ (b.Put ns k v).1 = b := by
  rw [boltDB.Put_eq]
  split_ifs with h1 h2 h3 h4
  · simp
  · simp
  · simp
  · simp
  · exfalso
    apply h
    refine ⟨h1, ?_, by omega, by omega⟩
    intro hk
    apply h2
    simp [hk]

/-- The sentinels that the durable `Put` can return are bolt's, never `ErrAlreadyExist`. -/
theorem boltDB.Put_ne_alreadyExist (b : boltDB) (ns k v : Bytes) :
    (b.Put ns k v).2 ≠ some .ErrAlreadyExist := by
  rw [boltDB.Put_eq]
  split_ifs <;> simp

/-- The claim C1: after a successful `Put(ns, k, v)`, `Get(ns, k)` returns `v` and no
error, whatever was stored before. The in-memory `Put` always succeeds; the durable
`Put` succeeds exactly when bolt accepts the bucket name, the key and the value. -/
theorem put_get_roundtrip (m : memKVStore) (b : boltDB) (ns k v : Bytes) :
    ((m.Put ns k v).2 = none ∧ (m.Put ns k v).1.Get ns k = (some v, none)) ∧
    ((b.Put ns k v).2 = none → (b.Put ns k v).1.Get ns k = (some v, none)) ∧
    ((b.Put ns k v).2 = none ↔
      (ns ≠ [] ∧ k ≠ [] ∧ k.length ≤ bolt.MaxKeySize ∧ v.length ≤ bolt.MaxValueSize)) := by
  have hiff : (b.Put ns k v).2 = none ↔
      (ns ≠ [] ∧ k ≠ [] ∧ k.length ≤ bolt.MaxKeySize ∧ v.length ≤ bolt.MaxValueSize) := by
    constructor
    · intro h
      by_contra hc
      exact (boltDB.Put_fail b ns k v hc).1 h
    · rintro ⟨h1, h2, h3, h4⟩
      rw [boltDB.Put_ok b ns k v h1 h2 h3 h4]
  refine ⟨⟨rfl, ?_⟩, ?_, hiff⟩
  · exact memKVStore.memGet_present _ ns k v (KV.store_same _ _ _)
  · intro h
    obtain ⟨h1, h2, h3, h4⟩ := hiff.mp h
    rw [boltDB.Put_ok b ns k v h1 h2 h3 h4]
    exact boltDB.Get_present _ ns k v _ (KV.store_same _ _ _) (KV.store_same _ _ _)

/-- Witness of C1 on a fresh durable store: the bytes "ns", "k" and the value 01 02. -/
theorem put_get_roundtrip_witness :
    (boltDB.NewBoltDB.Put [110, 115] [107] [1, 2]).2 = none ∧
    (boltDB.NewBoltDB.Put [110, 115] [107] [1, 2]).1.Get [110, 115] [107] =
      (some [1, 2], none) :=
  ⟨by decide,
   (put_get_roundtrip memKVStore.NewMemKVStore boltDB.NewBoltDB
      [110, 115] [107] [1, 2]).2.1 (by decide)⟩

/-- The claim C2 fails on the in-memory store: the pairs ("a", ".b") and ("a.", "b")
are different, yet both are stored under the string "a..b", so that on a new store
`Put("a", ".b", v)` turns the miss of `Get("a.", "b")` into a hit returning `v`. -/
theorem memKVStore_namespace_collision :
    (([97] : Bytes), ([46, 98] : Bytes)) ≠ (([97, 46] : Bytes), ([98] : Bytes)) ∧
    memKVStore.NewMemKVStore.Get [97, 46] [98] =
      (none, some (.Wrap .ErrNotExist (.key [98]))) ∧
    (memKVStore.NewMemKVStore.Put [97] [46, 98] [1]).1.Get [97, 46] [98] =
      (some [1], none) := by
  decide

theorem boltDB.PutIfNotExists_exists (b : boltDB) (ns k v old : Bytes) (hns : ns ≠ [])
    (h : b.lookup ns k = some old) : b.PutIfNotExists ns k v = (b, some .ErrAlreadyExist) := by
  unfold boltDB.lookup at h
  cases hb : b.db.buckets ns with
  | none => simp [hb] at h
  | some bkt =>
    simp only [hb] at h
    simp [boltDB.PutIfNotExists, boltDB.ofUpdate, bolt.DB.Update,
      bolt.Tx.CreateBucketIfNotExists, bolt.Tx.bucketGet, hns, hb, h]

theorem boltDB.PutIfNotExists_absent (b : boltDB) (ns k v : Bytes)
    (h : b.lookup ns k = none) :
    b.PutIfNotExists ns k v = b.Put ns k v := by
  unfold boltDB.lookup at h
  by_cases hns : ns = []
  · simp [boltDB.PutIfNotExists, boltDB.Put, boltDB.ofUpdate, bolt.DB.Update,
      bolt.Tx.CreateBucketIfNotExists, hns]
  · cases hb : b.db.buckets ns with
    | none =>
      simp [boltDB.PutIfNotExists, boltDB.Put, boltDB.ofUpdate, bolt.DB.Update,
        bolt.Tx.CreateBucketIfNotExists, bolt.Tx.bucketGet, hns, hb, KV.store_same, KV.empty]
    | some bkt =>
      simp only [hb] at h
      simp [boltDB.PutIfNotExists, boltDB.Put, boltDB.ofUpdate, bolt.DB.Update,
        bolt.Tx.CreateBucketIfNotExists, bolt.Tx.bucketGet, hns, hb, h]

theorem boltDB.Get_found_iff (b : boltDB) (ns key old : Bytes) :
    b.Get ns key = (some old, none) ↔ b.lookup ns key = some old := by
  constructor
  · intro h
    unfold boltDB.lookup
    cases hb : b.db.buckets ns with
    | none => rw [boltDB.Get_no_bucket b ns key hb] at h; simp at h
    | some bkt =>
      cases hk : bkt key with
      | none => rw [boltDB.Get_absent b ns key bkt hb hk] at h; simp at h
      | some w =>
        rw [boltDB.Get_present b ns key w bkt hb hk] at h
        have hw : w = old := by simpa using h
        simp [hk, hw]
  · exact boltDB.Get_eq_lookup b ns key old

theorem memKVStore.memGet_found_iff (m : memKVStore) (ns key old : Bytes) :
    m.Get ns key = (some old, none) ↔ m.data (ns ++ keyDelimiter ++ key) = some old := by
  constructor
  · intro h
    cases hk : m.data (ns ++ keyDelimiter ++ key) with
    | none => rw [memKVStore.memGet_absent m ns key hk] at h; simp at h
    | some w =>
      rw [memKVStore.memGet_present m ns key w hk] at h
      simpa using h
  · exact memKVStore.memGet_present m ns key old

theorem memKVStore.memPutIfNotExists_exists (m : memKVStore) (ns k v old : Bytes)
    (h : m.data (ns ++ keyDelimiter ++ k) = some old) :
    m.PutIfNotExists ns k v = (m, some .ErrAlreadyExist) := by
  unfold memKVStore.PutIfNotExists; rw [h]

theorem memKVStore.memPutIfNotExists_absent (m : memKVStore) (ns k v : Bytes)
    (h : m.data (ns ++ keyDelimiter ++ k) = none) :
    m.PutIfNotExists ns k v = m.Put ns k v := by
  unfold memKVStore.PutIfNotExists memKVStore.Put; rw [h]

/-- The claim C3 as the code has it. In-memory store: `PutIfNotExists(ns, k, v)` returns
`ErrAlreadyExist` exactly when `Get(ns, k)` finds a record, and then leaves the store as
it was; otherwise it returns no error and `Get(ns, k)` returns `v`. Durable store (no
bucket with the empty name): the same, except that when no record exists the call
succeeds only if bolt accepts the bucket name, the key and the value; if bolt refuses,
the call returns bolt's error and the store is as it was. -/
theorem putIfNotExists_spec (m : memKVStore) (b : boltDB) (hb : b.wellFormed)
    (ns k v : Bytes) :
    (((m.PutIfNotExists ns k v).2 = some .ErrAlreadyExist ↔
        ∃ old, m.Get ns k = (some old, none)) ∧
     (∀ old, m.Get ns k = (some old, none) →
        (m.PutIfNotExists ns k v).1 = m ∧
        (m.PutIfNotExists ns k v).1.Get ns k = (some old, none)) ∧
     ((¬ ∃ old, m.Get ns k = (some old, none)) →
        (m.PutIfNotExists ns k v).2 = none ∧
        (m.PutIfNotExists ns k v).1.Get ns k = (some v, none))) ∧
    (((b.PutIfNotExists ns k v).2 = some .ErrAlreadyExist ↔
        ∃ old, b.Get ns k = (some old, none)) ∧
     (∀ old, b.Get ns k = (some old, none) →
        (b.PutIfNotExists ns k v).1 = b ∧
        (b.PutIfNotExists ns k v).1.Get ns k = (some old, none)) ∧
     ((¬ ∃ old, b.Get ns k = (some old, none)) →
        ns ≠ [] → k ≠ [] → k.length ≤ bolt.MaxKeySize → v.length ≤ bolt.MaxValueSize →
        (b.PutIfNotExists ns k v).2 = none ∧
        (b.PutIfNotExists ns k v).1.Get ns k = (some v, none)) ∧
     ((¬ ∃ old, b.Get ns k = (some old, none)) →
        ¬ (ns ≠ [] ∧ k ≠ [] ∧ k.length ≤ bolt.MaxKeySize ∧ v.length ≤ bolt.MaxValueSize) →
        (b.PutIfNotExists ns k v).2 ≠ none ∧
        (b.PutIfNotExists ns k v).1 = b)) := by
  refine ⟨⟨?_, ?_, ?_⟩, ?_, ?_, ?_, ?_⟩
  · constructor
    · intro h
      cases hk : m.data (ns ++ keyDelimiter ++ k) with
      | none =>
        rw [memKVStore.memPutIfNotExists_absent m ns k v hk] at h
        simp [memKVStore.Put] at h
      | some old => exact ⟨old, memKVStore.memGet_present m ns k old hk⟩
    · rintro ⟨old, h⟩
      rw [memKVStore.memPutIfNotExists_exists m ns k v old ((memKVStore.memGet_found_iff _ _ _ _).mp h)]
  · intro old h
    rw [memKVStore.memPutIfNotExists_exists m ns k v old ((memKVStore.memGet_found_iff _ _ _ _).mp h)]
    exact ⟨rfl, h⟩
  · intro h
    have hk : m.data (ns ++ keyDelimiter ++ k) = none := by
      cases hk : m.data (ns ++ keyDelimiter ++ k) with
      | none => rfl
      | some old => exact absurd ⟨old, memKVStore.memGet_present m ns k old hk⟩ h
    rw [memKVStore.memPutIfNotExists_absent m ns k v hk]
    exact ⟨rfl, memKVStore.memGet_present _ ns k v (KV.store_same _ _ _)⟩
  · constructor
    · intro h
      cases hk : b.lookup ns k with
      | none =>
        rw [boltDB.PutIfNotExists_absent b ns k v hk] at h
        exact absurd h (boltDB.Put_ne_alreadyExist b ns k v)
      | some old => exact ⟨old, boltDB.Get_eq_lookup b ns k old hk⟩
    · rintro ⟨old, h⟩
      have hl := (boltDB.Get_found_iff _ _ _ _).mp h
      have hns : ns ≠ [] := by
        intro hns
        subst hns
        unfold boltDB.wellFormed at hb
        simp [boltDB.lookup, hb] at hl
      rw [boltDB.PutIfNotExists_exists b ns k v old hns hl]
  · intro old h
    have hl := (boltDB.Get_found_iff _ _ _ _).mp h
    have hns : ns ≠ [] := by
      intro hns
      subst hns
      unfold boltDB.wellFormed at hb
      simp [boltDB.lookup, hb] at hl
    rw [boltDB.PutIfNotExists_exists b ns k v old hns hl]
    exact ⟨rfl, h⟩
  · intro h h1 h2 h3 h4
    have hk : b.lookup ns k = none := by
      cases hk : b.lookup ns k with
      | none => rfl
      | some old => exact absurd ⟨old, boltDB.Get_eq_lookup b ns k old hk⟩ h
    rw [boltDB.PutIfNotExists_absent b ns k v hk, boltDB.Put_ok b ns k v h1 h2 h3 h4]
    exact ⟨rfl, boltDB.Get_present _ ns k v _ (KV.store_same _ _ _) (KV.store_same _ _ _)⟩
  · intro h hc
    have hk : b.lookup ns k = none := by
      cases hk : b.lookup ns k with
      | none => rfl
      | some old => exact absurd ⟨old, boltDB.Get_eq_lookup b ns k old hk⟩ h
    rw [boltDB.PutIfNotExists_absent b ns k v hk]
    exact boltDB.Put_fail b ns k v hc

/-- Witness of C3 on a fresh durable store: no record for ("ns", "k"), bolt accepts
the name, the key and the value, so the insert succeeds and is read back. -/
theorem putIfNotExists_spec_witness :
    boltDB.NewBoltDB.wellFormed ∧
    (boltDB.NewBoltDB.PutIfNotExists [110, 115] [107] [1]).2 = none ∧
    (boltDB.NewBoltDB.PutIfNotExists [110, 115] [107] [1]).1.Get [110, 115] [107] =
      (some [1], none) :=
  ⟨rfl,
   (putIfNotExists_spec memKVStore.NewMemKVStore boltDB.NewBoltDB rfl
      [110, 115] [107] [1]).2.2.2.1
      (fun ⟨_, h⟩ => by rw [boltDB.Get_no_bucket _ _ _ rfl] at h; simp at h)
      (by decide) (by decide) (by decide) (by decide)⟩

/-- The claim C3 as stated fails on the durable store: on a fresh store no record exists
for the namespace "ns" and the empty key, yet `PutIfNotExists` does not return "no
error": bolt refuses the empty key and the call returns `ErrKeyRequired`. -/
theorem putIfNotExists_empty_key :
    (¬ ∃ old, boltDB.NewBoltDB.Get [110, 115] [] = (some old, none)) ∧
    (boltDB.NewBoltDB.PutIfNotExists [110, 115] [] [1]).2 = some .ErrKeyRequired :=
  ⟨fun ⟨_, h⟩ => by rw [boltDB.Get_no_bucket _ _ _ rfl] at h; simp at h, by decide⟩

/-- The claim C4 as the code has it. In-memory store: every miss returns no value and
an error whose cause is `ErrNotExist`, carrying the queried key. Durable store: a miss
in an existing bucket does the same; a miss in a namespace whose bucket does not exist
returns no value and an error whose cause is bolt's `ErrBucketNotFound`. -/
theorem get_miss (m : memKVStore) (b : boltDB) (ns key : Bytes) :
    (m.data (ns ++ keyDelimiter ++ key) = none →
      ∃ e, m.Get ns key = (none, some e) ∧ e.Cause = .ErrNotExist ∧
        e = .Wrap .ErrNotExist (.key key)) ∧
    (∀ bkt, b.db.buckets ns = some bkt → bkt key = none →
      ∃ e, b.Get ns key = (none, some e) ∧ e.Cause = .ErrNotExist ∧
        e = .Wrap .ErrNotExist (.key key)) ∧
    (b.db.buckets ns = none →
      ∃ e, b.Get ns key = (none, some e) ∧ e.Cause = .ErrBucketNotFound) := by
  refine ⟨fun h => ⟨_, memKVStore.memGet_absent m ns key h, rfl, rfl⟩,
    fun bkt hb hk => ⟨_, boltDB.Get_absent b ns key bkt hb hk, rfl, rfl⟩,
    fun hb => ⟨_, boltDB.Get_no_bucket b ns key hb, rfl⟩⟩

/-- Witness of C4: a durable store holding ("ns", "k"), read at the absent key "j". -/
theorem get_miss_witness :
    ∃ e, (boltDB.NewBoltDB.Put [110, 115] [107] [1]).1.Get [110, 115] [106] = (none, some e) ∧
      e.Cause = .ErrNotExist ∧ e = .Wrap .ErrNotExist (.key [106]) :=
  (get_miss memKVStore.NewMemKVStore (boltDB.NewBoltDB.Put [110, 115] [107] [1]).1
      [110, 115] [106]).2.1
    ((KV.empty : KV Bytes).store [107] [1]) (by
      rw [boltDB.Put_ok _ _ _ _ (by decide) (by decide) (by decide) (by decide)]
      simp [KV.store_same, boltDB.NewBoltDB, KV.empty]) (by decide)

/-- The claim C4 as stated fails on the durable store: on a fresh store the namespace
"ns" has never been written, and `Get` returns an error whose cause is bolt's
`ErrBucketNotFound`, not `ErrNotExist`. -/
theorem get_never_written_namespace :
    ∃ e, boltDB.NewBoltDB.Get [110, 115] [107] = (none, some e) ∧
      e.Cause = .ErrBucketNotFound ∧ e.Cause ≠ .ErrNotExist :=
  ⟨_, rfl, rfl, by decide⟩

theorem memKVStore.memDelete_absent (m : memKVStore) (ns key : Bytes)
    (h : m.data (ns ++ keyDelimiter ++ key) = none) : m.Delete ns key = (m, none) := by
  unfold memKVStore.Delete
  rw [KV.erase_absent _ _ h]

theorem boltDB.Delete_no_bucket (b : boltDB) (ns key : Bytes) (h : b.db.buckets ns = none) :
    b.Delete ns key = (b, some (.Wrap .ErrBucketNotFound (.bucket ns))) := by
  simp [boltDB.Delete, boltDB.ofUpdate, bolt.DB.Update, bolt.Tx.Bucket, h]

theorem boltDB.Delete_bucket (b : boltDB) (ns key : Bytes) (bkt : KV Bytes)
    (h : b.db.buckets ns = some bkt) :
    b.Delete ns key = (⟨⟨b.db.buckets.store ns (bkt.erase key)⟩⟩, none) := by
  simp [boltDB.Delete, boltDB.ofUpdate, bolt.DB.Update, bolt.Tx.Bucket, bolt.Tx.bucketDelete, h]

theorem boltDB.Delete_absent (b : boltDB) (ns key : Bytes) (bkt : KV Bytes)
    (h : b.db.buckets ns = some bkt) (hk : bkt key = none) : b.Delete ns key = (b, none) := by
  rw [boltDB.Delete_bucket b ns key bkt h, KV.erase_absent _ _ hk, KV.store_self _ _ _ h]

/-- The claim C5 as the code has it. In-memory store: `Delete` of a pair with no record
returns no error and leaves the store as it was. Durable store: the same when the bucket
of the namespace exists; when it does not, `Delete` returns an error whose cause is
bolt's `ErrBucketNotFound` and leaves the store as it was. In all three cases a second
`Delete` has the result and the effect of the first. -/
theorem delete_missing (m : memKVStore) (b : boltDB) (ns key : Bytes) :
    (m.data (ns ++ keyDelimiter ++ key) = none →
      m.Delete ns key = (m, none) ∧
      (m.Delete ns key).1.Delete ns key = m.Delete ns key) ∧
    (∀ bkt, b.db.buckets ns = some bkt → bkt key = none →
      b.Delete ns key = (b, none) ∧
      (b.Delete ns key).1.Delete ns key = b.Delete ns key) ∧
    (b.db.buckets ns = none →
      (∃ e, b.Delete ns key = (b, some e) ∧ e.Cause = .ErrBucketNotFound) ∧
      (b.Delete ns key).1.Delete ns key = b.Delete ns key) := by
  refine ⟨fun h => ?_, fun bkt hb hk => ?_, fun hb => ?_⟩
  · have hd := memKVStore.memDelete_absent m ns key h
    exact ⟨hd, by rw [hd]; exact hd⟩
  · have hd := boltDB.Delete_absent b ns key bkt hb hk
    exact ⟨hd, by rw [hd]; exact hd⟩
  · have hd := boltDB.Delete_no_bucket b ns key hb
    exact ⟨⟨_, hd, rfl⟩, by rw [hd]; exact hd⟩

/-- Witness of C5: a durable store holding ("ns", "k"), deleted at the absent key "j". -/
theorem delete_missing_witness :
    (boltDB.NewBoltDB.Put [110, 115] [107] [1]).1.Delete [110, 115] [106] =
      ((boltDB.NewBoltDB.Put [110, 115] [107] [1]).1, none) :=
  ((delete_missing memKVStore.NewMemKVStore (boltDB.NewBoltDB.Put [110, 115] [107] [1]).1
      [110, 115] [106]).2.1
    ((KV.empty : KV Bytes).store [107] [1]) (by
      rw [boltDB.Put_ok _ _ _ _ (by decide) (by decide) (by decide) (by decide)]
      simp [KV.store_same, boltDB.NewBoltDB, KV.empty]) (by decide)).1

/-- The claim C5 as stated fails on the durable store: on a fresh store the namespace
"ns" has never been written, and `Delete` returns an error, that of a missing bucket. -/
theorem delete_never_written_namespace :
    (boltDB.NewBoltDB.Delete [110, 115] [107]).2 =
      some (.Wrap .ErrBucketNotFound (.bucket [110, 115])) ∧
    (boltDB.NewBoltDB.Delete [110, 115] [107]).2 ≠ none := by
  decide

theorem boltDB.BatchPut_shape (b : boltDB) (ns : Bytes) (key value : List Bytes)
    (h : key.length ≠ value.length) :
    b.BatchPut ns key value =
      if ns = [] then (b, some .ErrBucketNameRequired)
      else (b, some (.Wrap .ErrInvalidDB .sizeNotMatch)) := by
  by_cases hns : ns = []
  · simp [boltDB.BatchPut, boltDB.ofUpdate, bolt.DB.Update, bolt.Tx.CreateBucketIfNotExists, hns]
  · cases hb : b.db.buckets ns <;>
    simp [boltDB.BatchPut, boltDB.ofUpdate, bolt.DB.Update, bolt.Tx.CreateBucketIfNotExists,
      hns, hb, h]

/-- The claim C6 as the code has it. With `len(keys) != len(values)`, the in-memory
`BatchPut` fails with `ErrInvalidDB` and leaves the store as it was; the durable
`BatchPut` fails and leaves the store as it was, so that every `Get` returns what it
returned before; the durable error is `ErrInvalidDB` when the namespace is not empty, and
bolt's `ErrBucketNameRequired` when it is, the bucket being created before the lengths
are compared. -/
theorem batchPut_shape_error (m : memKVStore) (b : boltDB) (ns : Bytes)
    (key value : List Bytes) (h : key.length ≠ value.length) :
    ((∃ e, m.BatchPut ns key value = (m, some e) ∧ e.Cause = .ErrInvalidDB) ∧
      ∀ ns2 k2, (m.BatchPut ns key value).1.Get ns2 k2 = m.Get ns2 k2) ∧
    ((∃ e, b.BatchPut ns key value = (b, some e) ∧
        (ns ≠ [] → e.Cause = .ErrInvalidDB) ∧ (ns = [] → e = .ErrBucketNameRequired)) ∧
      ∀ ns2 k2, (b.BatchPut ns key value).1.Get ns2 k2 = b.Get ns2 k2) := by
  have hm : m.BatchPut ns key value = (m, some (.Wrap .ErrInvalidDB .sizeNotMatch)) := by
    simp [memKVStore.BatchPut, h]
  have hb := boltDB.BatchPut_shape b ns key value h
  refine ⟨⟨⟨_, hm, rfl⟩, fun ns2 k2 => by rw [hm]⟩, ?_, ?_⟩
  · by_cases hns : ns = []
    · rw [if_pos hns] at hb
      exact ⟨_, hb, fun h2 => absurd hns h2, fun _ => rfl⟩
    · rw [if_neg hns] at hb
      exact ⟨_, hb, fun _ => rfl, fun h2 => absurd h2 hns⟩
  · intro ns2 k2
    rw [hb]
    split_ifs <;> rfl

/-- Witness of C6: one key and no value, on a durable store that holds ("ns", "k"); the
record is read after the failed call as before it. -/
theorem batchPut_shape_error_witness :
    ((boltDB.NewBoltDB.Put [110, 115] [107] [1]).1.BatchPut [110, 115] [[106]] []).1.Get
        [110, 115] [107] = (boltDB.NewBoltDB.Put [110, 115] [107] [1]).1.Get [110, 115] [107] ∧
    ∃ e, (boltDB.NewBoltDB.Put [110, 115] [107] [1]).1.BatchPut [110, 115] [[106]] [] =
        ((boltDB.NewBoltDB.Put [110, 115] [107] [1]).1, some e) ∧ e.Cause = .ErrInvalidDB :=
  have h := batchPut_shape_error memKVStore.NewMemKVStore
    (boltDB.NewBoltDB.Put [110, 115] [107] [1]).1 [110, 115] [[106]] [] (by decide)
  ⟨h.2.2 [110, 115] [107],
   let ⟨e, h1, h2, _⟩ := h.2.1
   ⟨e, h1, h2 (by decide)⟩⟩

/-- The claim C6 as stated fails on the durable store in the error it names: with the
empty namespace, one key and no value, `BatchPut` fails with bolt's
`ErrBucketNameRequired`, whose cause is not `ErrInvalidDB`. -/
theorem batchPut_shape_error_empty_namespace :
    ([[1]] : List Bytes).length ≠ ([] : List Bytes).length ∧
    (boltDB.NewBoltDB.BatchPut [] [[1]] []).2 = some .ErrBucketNameRequired ∧
    Error.ErrBucketNameRequired.Cause ≠ .ErrInvalidDB := by
  decide

/-- The claim C7 fails at the empty lists: on a fresh durable store,
`batchPutForceFail("ns", [], [])` returns no error, and the transaction is committed
with the bucket "ns" created, so that `Get("ns", "k")` no longer returns the error it
returned before the call. With one key and one value the call fails as intended. -/
theorem batchPutForceFail_empty_lists :
    (boltDB.NewBoltDB.batchPutForceFail [110, 115] [] []).2 = none ∧
    boltDB.NewBoltDB.Get [110, 115] [107] =
      (none, some (.Wrap .ErrBucketNotFound (.bucket [110, 115]))) ∧
    (boltDB.NewBoltDB.batchPutForceFail [110, 115] [] []).1.Get [110, 115] [107] =
      (none, some (.Wrap .ErrNotExist (.key [107]))) ∧
    (boltDB.NewBoltDB.batchPutForceFail [110, 115] [[107]] [[1]]).2 =
      some (.Wrap .ErrInvalidDB .forceFail) := by
  decide

/-- What `Get` returns is the stored record, if any. -/
theorem boltDB.Get_fst (b : boltDB) (ns key : Bytes) : (b.Get ns key).1 = b.lookup ns key := by
  unfold boltDB.lookup
  cases hb : b.db.buckets ns with
  | none => rw [boltDB.Get_no_bucket b ns key hb]
  | some bkt =>
    cases hk : bkt key with
    | none => rw [boltDB.Get_absent b ns key bkt hb hk]; simp [hk]
    | some v => rw [boltDB.Get_present b ns key v bkt hb hk]; simp [hk]

/-- The records after a successful durable `Put`: the one written, and the others as
they were. -/
theorem boltDB.lookup_Put (b b2 : boltDB) (ns k v : Bytes) (h : b.Put ns k v = (b2, none))
    (ns2 k2 : Bytes) :
    b2.lookup ns2 k2 = if ns2 = ns ∧ k2 = k then some v else b.lookup ns2 k2 := by
  rw [boltDB.Put_eq] at h
  split_ifs at h with h1 h2 h3 h4
  all_goals try (simp at h)
  subst h
  unfold boltDB.lookup
  by_cases hns : ns2 = ns
  · subst hns
    by_cases hk : k2 = k
    · subst hk
      simp [KV.store_same]
    · cases hb : b.db.buckets ns2 <;> simp [KV.store, hk, hb, KV.empty]
  · simp [KV.store, hns]

/-! ### The state invariant of the durable store -/

theorem bolt.Tx.CreateBucketIfNotExists_nil (tx : bolt.Tx) (name : Bytes) :
    (tx.CreateBucketIfNotExists name).1.buckets [] = tx.buckets [] := by
  unfold bolt.Tx.CreateBucketIfNotExists
  by_cases hn : name = []
  · simp [hn]
  · rw [if_neg hn]
    cases hb : tx.buckets name with
    | some bkt => rfl
    | none =>
      have hne : ([] : Bytes) ≠ name := fun hc => hn hc.symm
      simp [KV.store, hne]

theorem bolt.Tx.bucketPut_nil (tx : bolt.Tx) (name key value : Bytes)
    (h : tx.buckets [] = none) : (tx.bucketPut name key value).1.buckets [] = none := by
  unfold bolt.Tx.bucketPut
  split_ifs
  · exact h
  · exact h
  · exact h
  · cases hb : tx.buckets name with
    | none => exact h
    | some bkt =>
      have hne : ([] : Bytes) ≠ name := by
        intro hc
        rw [← hc, h] at hb
        simp at hb
      simp [KV.store, hne, h]

theorem bolt.Tx.bucketDelete_nil (tx : bolt.Tx) (name key : Bytes)
    (h : tx.buckets [] = none) : (tx.bucketDelete name key).1.buckets [] = none := by
  unfold bolt.Tx.bucketDelete
  cases hb : tx.buckets name with
  | none => exact h
  | some bkt =>
    have hne : ([] : Bytes) ≠ name := by
      intro hc
      rw [← hc, h] at hb
      simp at hb
    simp [KV.store, hne, h]

theorem bolt.DB.Update_nil (d : bolt.DB) (fn : bolt.Tx → bolt.Tx × Option Error)
    (h : d.buckets [] = none) (hfn : ∀ tx : bolt.Tx, tx.buckets [] = none →
      (fn tx).1.buckets [] = none) : (d.Update fn).1.buckets [] = none := by
  unfold bolt.DB.Update
  have h2 := hfn ⟨d.buckets⟩ h
  rcases hf : fn ⟨d.buckets⟩ with ⟨tx, _ | err⟩
  · rw [hf] at h2
    exact h2
  · exact h

theorem boltDB.BatchPut_loop_nil (ns : Bytes) (key : List Bytes) :
    ∀ (value : List Bytes) (tx : bolt.Tx), tx.buckets [] = none →
      (boltDB.BatchPut.loop ns key value tx).1.buckets [] = none := by
  induction key with
  | nil => intro value tx h; simpa [boltDB.BatchPut.loop] using h
  | cons k ks ih =>
    intro value tx h
    cases value with
    | nil => simpa [boltDB.BatchPut.loop] using h
    | cons v vs =>
      have hp := bolt.Tx.bucketPut_nil tx ns k v h
      simp only [boltDB.BatchPut.loop]
      rcases hr : tx.bucketPut ns k v with ⟨tx2, _ | err⟩
      · rw [hr] at hp
        exact ih vs tx2 hp
      · rw [hr] at hp
        exact hp

theorem boltDB.batchPutForceFail_loop_nil (ns : Bytes) (n : Nat) (key : List Bytes) :
    ∀ (i : Nat) (value : List Bytes) (tx : bolt.Tx), tx.buckets [] = none →
      (boltDB.batchPutForceFail.loop ns n i key value tx).1.buckets [] = none := by
  induction key with
  | nil => intro i value tx h; simpa [boltDB.batchPutForceFail.loop] using h
  | cons k ks ih =>
    intro i value tx h
    cases value with
    | nil => simpa [boltDB.batchPutForceFail.loop] using h
    | cons v vs =>
      have hp := bolt.Tx.bucketPut_nil tx ns k v h
      simp only [boltDB.batchPutForceFail.loop]
      rcases hr : tx.bucketPut ns k v with ⟨tx2, _ | err⟩
      · rw [hr] at hp
        dsimp only
        split_ifs
        · exact hp
        · exact ih (i + 1) vs tx2 hp
      · rw [hr] at hp
        exact hp

/-- The invariant `wellFormed` holds of a fresh store and is kept by every operation of
the durable store, whatever the operation returns. -/
theorem boltDB.wellFormed_invariant :
    boltDB.NewBoltDB.wellFormed ∧
    ∀ (b : boltDB), b.wellFormed → ∀ (ns k v : Bytes) (ks vs : List Bytes),
      (b.Put ns k v).1.wellFormed ∧ (b.PutIfNotExists ns k v).1.wellFormed ∧
      (b.BatchPut ns ks vs).1.wellFormed ∧ (b.Delete ns k).1.wellFormed ∧
      (b.batchPutForceFail ns ks vs).1.wellFormed := by
  refine ⟨rfl, fun b hb ns k v ks vs => ⟨?_, ?_, ?_, ?_, ?_⟩⟩
  all_goals
    unfold boltDB.wellFormed at hb ⊢
  · refine bolt.DB.Update_nil _ _ hb (fun tx htx => ?_)
    have hc := bolt.Tx.CreateBucketIfNotExists_nil tx ns
    rcases hr : tx.CreateBucketIfNotExists ns with ⟨tx2, _ | err⟩
    · rw [hr] at hc
      exact bolt.Tx.bucketPut_nil tx2 ns k v (hc.trans htx)
    · rw [hr] at hc
      exact hc.trans htx
  · refine bolt.DB.Update_nil _ _ hb (fun tx htx => ?_)
    have hc := bolt.Tx.CreateBucketIfNotExists_nil tx ns
    rcases hr : tx.CreateBucketIfNotExists ns with ⟨tx2, _ | err⟩
    · rw [hr] at hc
      dsimp only
      cases tx2.bucketGet ns k with
      | none => exact bolt.Tx.bucketPut_nil tx2 ns k v (hc.trans htx)
      | some _ => exact hc.trans htx
    · rw [hr] at hc
      exact hc.trans htx
  · refine bolt.DB.Update_nil _ _ hb (fun tx htx => ?_)
    have hc := bolt.Tx.CreateBucketIfNotExists_nil tx ns
    rcases hr : tx.CreateBucketIfNotExists ns with ⟨tx2, _ | err⟩
    · rw [hr] at hc
      dsimp only
      split_ifs
      · exact hc.trans htx
      · exact boltDB.BatchPut_loop_nil ns ks vs tx2 (hc.trans htx)
    · rw [hr] at hc
      exact hc.trans htx
  · refine bolt.DB.Update_nil _ _ hb (fun tx htx => ?_)
    cases hr : tx.Bucket ns with
    | none => exact htx
    | some bkt => exact bolt.Tx.bucketDelete_nil tx ns k htx
  · refine bolt.DB.Update_nil _ _ hb (fun tx htx => ?_)
    have hc := bolt.Tx.CreateBucketIfNotExists_nil tx ns
    rcases hr : tx.CreateBucketIfNotExists ns with ⟨tx2, _ | err⟩
    · rw [hr] at hc
      dsimp only
      split_ifs
      · exact hc.trans htx
      · exact boltDB.batchPutForceFail_loop_nil ns ks.length ks 0 vs tx2 (hc.trans htx)
    · rw [hr] at hc
      exact hc.trans htx

/-- A non-empty batch always makes the forced-fail loop return an error. -/
theorem boltDB.batchPutForceFail_loop_fails (ns : Bytes) (n : Nat) (key : List Bytes) :
    ∀ (i : Nat) (value : List Bytes) (tx : bolt.Tx), key ≠ [] →
      key.length = value.length → i + key.length = n →
      (boltDB.batchPutForceFail.loop ns n i key value tx).2 ≠ none := by
  induction key with
  | nil => intro i value tx h; exact absurd rfl h
  | cons k ks ih =>
    intro i value tx _ hlen hn
    cases value with
    | nil => simp at hlen
    | cons v vs =>
      simp only [boltDB.batchPutForceFail.loop]
      rcases hr : tx.bucketPut ns k v with ⟨tx2, _ | err⟩
      · dsimp only
        split_ifs with hi
        · simp
        · have hks : ks ≠ [] := by
            intro hc
            subst hc
            simp at hn
            omega
          exact ih (i + 1) vs tx2 hks (by simpa using hlen) (by simp at hn ⊢; omega)
      · simp

/-- Outside the empty batch the forced failure works: for non-empty lists
`batchPutForceFail` returns an error and the store is the one before the call. -/
theorem boltDB.batchPutForceFail_nonempty (b : boltDB) (ns : Bytes) (key value : List Bytes)
    (hk : key ≠ []) :
    (b.batchPutForceFail ns key value).2 ≠ none ∧ (b.batchPutForceFail ns key value).1 = b := by
  have hfail : (b.batchPutForceFail ns key value).2 ≠ none := by
    unfold boltDB.batchPutForceFail boltDB.ofUpdate bolt.DB.Update
    rcases hr : bolt.Tx.CreateBucketIfNotExists ⟨b.db.buckets⟩ ns with ⟨tx2, _ | err⟩
    · simp only [hr]
      by_cases hlen : key.length = value.length
      · have hl := boltDB.batchPutForceFail_loop_fails ns key.length key 0 value tx2 hk hlen
          (by simp)
        have hnn : ¬ key.length ≠ value.length := by simpa using hlen
        rw [if_neg hnn]
        rcases hloop : boltDB.batchPutForceFail.loop ns key.length 0 key value tx2 with
          ⟨tx3, _ | err⟩
        · rw [hloop] at hl
          exact absurd rfl hl
        · simp
      · rw [if_pos hlen]
        simp
    · simp only [hr]
      simp
  refine ⟨hfail, ?_⟩
  cases he : (b.batchPutForceFail ns key value).2 with
  | none => exact absurd he hfail
  | some e =>
    unfold boltDB.batchPutForceFail boltDB.ofUpdate at he ⊢
    simp only at he ⊢
    rw [bolt.DB.Update_rollback _ _ e he]

/-! ### Delete of a record that exists -/

/-- What `Get` returns for a namespace depends on the bucket of that namespace only. -/
theorem boltDB.Get_eq_of_bucket (b b2 : boltDB) (ns key : Bytes)
    (h : b2.db.buckets ns = b.db.buckets ns) : b2.Get ns key = b.Get ns key := by
  unfold boltDB.Get bolt.DB.View bolt.Tx.Bucket
  simp only [h]

/-- On the durable store `Delete` removes exactly one record: when `Get(ns, k)` finds a
record, `Delete(ns, k)` returns no error, `Get(ns, k)` afterwards signals `ErrNotExist`,
and `Get` on every other pair returns what it returned before. -/
theorem boltDB.Delete_removes_one (b : boltDB) (ns k old : Bytes)
    (h : b.Get ns k = (some old, none)) :
    (b.Delete ns k).2 = none ∧
    (∃ e, (b.Delete ns k).1.Get ns k = (none, some e) ∧ e.Cause = .ErrNotExist) ∧
    ∀ ns2 k2, (ns2, k2) ≠ (ns, k) → (b.Delete ns k).1.Get ns2 k2 = b.Get ns2 k2 := by
  have hl := (boltDB.Get_found_iff b ns k old).mp h
  unfold boltDB.lookup at hl
  cases hb : b.db.buckets ns with
  | none => simp [hb] at hl
  | some bkt =>
    simp only [hb] at hl
    rw [boltDB.Delete_bucket b ns k bkt hb]
    refine ⟨rfl, ⟨_, boltDB.Get_absent _ ns k (bkt.erase k) (KV.store_same _ _ _) ?_, rfl⟩, ?_⟩
    · simp [KV.erase]
    · intro ns2 k2 hne
      by_cases hns : ns2 = ns
      · subst hns
        have hk : k2 ≠ k := by
          intro hc
          exact hne (by rw [hc])
        have he : (bkt.erase k) k2 = bkt k2 := by simp [KV.erase, hk]
        cases hv : bkt k2 with
        | none =>
          rw [boltDB.Get_absent _ ns2 k2 (bkt.erase k) (KV.store_same _ _ _) (he.trans hv),
            boltDB.Get_absent b ns2 k2 bkt hb hv]
        | some w =>
          rw [boltDB.Get_present _ ns2 k2 w (bkt.erase k) (KV.store_same _ _ _) (he.trans hv),
            boltDB.Get_present b ns2 k2 w bkt hb hv]
      · exact boltDB.Get_eq_of_bucket b _ ns2 k2 (KV.store_other _ _ _ _ hns)

/-- On the in-memory store `Delete(ns, k)` of a record that exists returns no error,
`Get(ns, k)` afterwards signals `ErrNotExist`, and `Get` returns what it returned before
on every pair that is stored under another string than `ns + "." + k`. -/
theorem memKVStore.memDelete_removes_one (m : memKVStore) (ns k : Bytes) :
    (m.Delete ns k).2 = none ∧
    (∃ e, (m.Delete ns k).1.Get ns k = (none, some e) ∧ e.Cause = .ErrNotExist) ∧
    ∀ ns2 k2, ns2 ++ keyDelimiter ++ k2 ≠ ns ++ keyDelimiter ++ k →
      (m.Delete ns k).1.Get ns2 k2 = m.Get ns2 k2 := by
  refine ⟨rfl, ⟨_, memKVStore.memGet_absent _ ns k ?_, rfl⟩, ?_⟩
  · simp [memKVStore.Delete, KV.erase]
  · intro ns2 k2 hne
    unfold memKVStore.Get memKVStore.Delete
    simp only [KV.erase, if_neg hne]

/-- The claim C14 fails on the in-memory store: in the store that holds one record,
written with `Put("a.", "b", v)`, a record exists for ("a", ".b") too, the two pairs being
stored under the same string "a..b"; `Delete("a", ".b")` returns no error and
`Get("a", ".b")` then signals `ErrNotExist`, but `Get("a.", "b")`, a different pair, no
longer returns `v`. -/
theorem memKVStore_delete_collision :
    (memKVStore.NewMemKVStore.Put [97, 46] [98] [1]).1.Get [97] [46, 98] = (some [1], none) ∧
    (([97, 46] : Bytes), ([98] : Bytes)) ≠ (([97] : Bytes), ([46, 98] : Bytes)) ∧
    (memKVStore.NewMemKVStore.Put [97, 46] [98] [1]).1.Get [97, 46] [98] = (some [1], none) ∧
    ((memKVStore.NewMemKVStore.Put [97, 46] [98] [1]).1.Delete [97] [46, 98]).2 = none ∧
    ((memKVStore.NewMemKVStore.Put [97, 46] [98] [1]).1.Delete [97] [46, 98]).1.Get
      [97, 46] [98] = (none, some (.Wrap .ErrNotExist (.key [98]))) := by
  decide

/-! ### Batches and sequences of single writes -/

theorem KV.store_store {α : Type} (m : KV α) (k : Bytes) (a c : α) :
    (m.store k a).store k c = m.store k c := by
  funext k2
  by_cases hk : k2 = k <;> simp [KV.store, hk]

theorem KV.storeAll_append (ks1 : List Bytes) :
    ∀ (vs1 ks2 vs2 : List Bytes) (d : KV Bytes), ks1.length = vs1.length →
      KV.storeAll d (ks1 ++ ks2) (vs1 ++ vs2) = KV.storeAll (KV.storeAll d ks1 vs1) ks2 vs2 := by
  induction ks1 with
  | nil =>
    intro vs1 ks2 vs2 d h
    cases vs1 with
    | nil => simp [KV.storeAll]
    | cons v vs => simp at h
  | cons k ks ih =>
    intro vs1 ks2 vs2 d h
    cases vs1 with
    | nil => simp at h
    | cons v vs =>
      simp only [List.cons_append, KV.storeAll]
      exact ih vs ks2 vs2 _ (by simpa using h)

theorem KV.storeAll_not_mem (ks : List Bytes) :
    ∀ (vs : List Bytes) (d : KV Bytes) (k : Bytes), k ∉ ks → KV.storeAll d ks vs k = d k := by
  induction ks with
  | nil => intro vs d k _; cases vs <;> simp [KV.storeAll]
  | cons k1 ks ih =>
    intro vs d k hk
    cases vs with
    | nil => simp [KV.storeAll]
    | cons v vs =>
      have h1 : k ≠ k1 := fun hc => hk (by simp [hc])
      have h2 : k ∉ ks := fun hc => hk (List.mem_cons_of_mem _ hc)
      simp only [KV.storeAll]
      rw [ih vs _ k h2, KV.store_other _ _ _ _ h1]

/-- The value at the last index of a key is the one that stays. -/
theorem KV.storeAll_last (d : KV Bytes) (ks1 ks2 vs1 vs2 : List Bytes) (k v : Bytes)
    (hlen : ks1.length = vs1.length) (hk : k ∉ ks2) :
    KV.storeAll d (ks1 ++ k :: ks2) (vs1 ++ v :: vs2) k = some v := by
  rw [KV.storeAll_append ks1 vs1 (k :: ks2) (v :: vs2) d hlen]
  simp only [KV.storeAll]
  rw [KV.storeAll_not_mem ks2 vs2 _ k hk, KV.store_same]

theorem memKVStore.BatchPut_loop_eq_storeAll (ns : Bytes) (ks : List Bytes) :
    ∀ (vs : List Bytes) (d : KV Bytes), memKVStore.BatchPut.loop ns ks vs d =
      KV.storeAll d (ks.map fun k => ns ++ keyDelimiter ++ k) vs := by
  induction ks with
  | nil => intro vs d; cases vs <;> simp [memKVStore.BatchPut.loop, KV.storeAll]
  | cons k ks ih =>
    intro vs d
    cases vs with
    | nil => simp [memKVStore.BatchPut.loop, KV.storeAll]
    | cons v vs => simp only [memKVStore.BatchPut.loop, List.map_cons, KV.storeAll, ih]

theorem memKVStore.BatchPut_loop_eq_putSequence (ns : Bytes) (ks : List Bytes) :
    ∀ (vs : List Bytes) (m : memKVStore),
      memKVStore.BatchPut.loop ns ks vs m.data = (m.putSequence ns ks vs).data := by
  induction ks with
  | nil => intro vs m; cases vs <;> simp [memKVStore.BatchPut.loop, memKVStore.putSequence]
  | cons k ks ih =>
    intro vs m
    cases vs with
    | nil => simp [memKVStore.BatchPut.loop, memKVStore.putSequence]
    | cons v vs =>
      simp only [memKVStore.BatchPut.loop, memKVStore.putSequence]
      exact ih vs (m.Put ns k v).1

theorem bolt.Tx.bucketPut_valid (tx : bolt.Tx) (ns k v : Bytes) (bkt : KV Bytes)
    (hb : tx.buckets ns = some bkt) (hv : bolt.validPair k v) :
    tx.bucketPut ns k v = (⟨tx.buckets.store ns (bkt.store k v)⟩, none) := by
  obtain ⟨h1, h2, h3⟩ := hv
  have h2n : ¬ k.length > bolt.MaxKeySize := by omega
  have h3n : ¬ v.length > bolt.MaxValueSize := by omega
  unfold bolt.Tx.bucketPut
  rw [if_neg h1, if_neg h2n, if_neg h3n, hb]

theorem bolt.Tx.bucketPut_invalid (tx : bolt.Tx) (ns k v : Bytes)
    (hv : ¬ bolt.validPair k v) : (tx.bucketPut ns k v).2 ≠ none := by
  unfold bolt.Tx.bucketPut
  split_ifs with h1 h2 h3
  · simp
  · simp
  · simp
  · exact absurd ⟨h1, by omega, by omega⟩ hv

theorem boltDB.BatchPut_loop_valid (ns : Bytes) (ks : List Bytes) :
    ∀ (vs : List Bytes) (tx : bolt.Tx) (bkt : KV Bytes), tx.buckets ns = some bkt →
      (∀ p ∈ ks.zip vs, bolt.validPair p.1 p.2) →
      boltDB.BatchPut.loop ns ks vs tx = (⟨tx.buckets.store ns (KV.storeAll bkt ks vs)⟩, none) := by
  induction ks with
  | nil =>
    intro vs tx bkt hb _
    cases vs <;> simp [boltDB.BatchPut.loop, KV.storeAll, KV.store_self _ _ _ hb]
  | cons k ks ih =>
    intro vs tx bkt hb hv
    cases vs with
    | nil => simp [boltDB.BatchPut.loop, KV.storeAll, KV.store_self _ _ _ hb]
    | cons v vs =>
      have hkv : bolt.validPair k v := hv (k, v) (by simp)
      have hrest : ∀ p ∈ ks.zip vs, bolt.validPair p.1 p.2 :=
        fun p hp => hv p (by simp [hp])
      simp only [boltDB.BatchPut.loop, bolt.Tx.bucketPut_valid tx ns k v bkt hb hkv]
      rw [ih vs _ (bkt.store k v) (KV.store_same _ _ _) hrest]
      simp only [KV.store_store, KV.storeAll]

theorem boltDB.BatchPut_loop_invalid (ns : Bytes) (ks : List Bytes) :
    ∀ (vs : List Bytes) (tx : bolt.Tx) (bkt : KV Bytes), tx.buckets ns = some bkt →
      ¬ (∀ p ∈ ks.zip vs, bolt.validPair p.1 p.2) →
      (boltDB.BatchPut.loop ns ks vs tx).2 ≠ none := by
  induction ks with
  | nil => intro vs tx bkt _ hv; exact absurd (by simp) hv
  | cons k ks ih =>
    intro vs tx bkt hb hv
    cases vs with
    | nil => exact absurd (by simp) hv
    | cons v vs =>
      simp only [boltDB.BatchPut.loop]
      by_cases hkv : bolt.validPair k v
      · rw [bolt.Tx.bucketPut_valid tx ns k v bkt hb hkv]
        refine ih vs _ (bkt.store k v) (KV.store_same _ _ _) (fun hrest => hv ?_)
        intro p hp
        simp only [List.zip_cons_cons, List.mem_cons] at hp
        rcases hp with hp | hp
        · rw [hp]; exact hkv
        · exact hrest p hp
      · have hf := bolt.Tx.bucketPut_invalid tx ns k v hkv
        rcases hr : tx.bucketPut ns k v with ⟨tx2, _ | err⟩
        · rw [hr] at hf
          exact absurd rfl hf
        · simp

/-- The durable `BatchPut` when bolt accepts the namespace and every pair: one write of
the bucket, with all the pairs stored in index order. -/
theorem boltDB.BatchPut_valid (b : boltDB) (ns : Bytes) (ks vs : List Bytes) (hns : ns ≠ [])
    (hlen : ks.length = vs.length) (hv : ∀ p ∈ ks.zip vs, bolt.validPair p.1 p.2) :
    b.BatchPut ns ks vs =
      (⟨⟨b.db.buckets.store ns (KV.storeAll ((b.db.buckets ns).getD KV.empty) ks vs)⟩⟩,
        none) := by
  have hnn : ¬ ks.length ≠ vs.length := by simpa using hlen
  unfold boltDB.BatchPut boltDB.ofUpdate bolt.DB.Update bolt.Tx.CreateBucketIfNotExists
  simp only [if_neg hns]
  cases hb : b.db.buckets ns with
  | some bkt =>
    simp only [if_neg hnn]
    rw [boltDB.BatchPut_loop_valid ns ks vs ⟨b.db.buckets⟩ bkt hb hv]
    simp
  | none =>
    simp only [if_neg hnn]
    rw [boltDB.BatchPut_loop_valid ns ks vs ⟨b.db.buckets.store ns KV.empty⟩ KV.empty
      (KV.store_same _ _ _) hv]
    simp [KV.store_store]

/-- The durable `BatchPut` when bolt refuses the namespace or one of the pairs: an error,
and the store as it was. -/
theorem boltDB.BatchPut_invalid (b : boltDB) (ns : Bytes) (ks vs : List Bytes)
    (hv : ¬ (ns ≠ [] ∧ ∀ p ∈ ks.zip vs, bolt.validPair p.1 p.2)) :
    (b.BatchPut ns ks vs).2 ≠ none ∧ (b.BatchPut ns ks vs).1 = b := by
  have hfail : (b.BatchPut ns ks vs).2 ≠ none := by
    unfold boltDB.BatchPut boltDB.ofUpdate bolt.DB.Update bolt.Tx.CreateBucketIfNotExists
    by_cases hns : ns = []
    · simp [hns]
    · have hinv : ¬ ∀ p ∈ ks.zip vs, bolt.validPair p.1 p.2 := fun hc => hv ⟨hns, hc⟩
      simp only [if_neg hns]
      by_cases hlen : ks.length ≠ vs.length
      · cases hb : b.db.buckets ns <;> simp [hlen]
      · cases hb : b.db.buckets ns with
        | some bkt =>
          simp only [if_neg hlen]
          have hl := boltDB.BatchPut_loop_invalid ns ks vs ⟨b.db.buckets⟩ bkt hb hinv
          rcases hr : boltDB.BatchPut.loop ns ks vs ⟨b.db.buckets⟩ with ⟨tx2, _ | err⟩
          · rw [hr] at hl
            exact absurd rfl hl
          · simp
        | none =>
          simp only [if_neg hlen]
          have hl := boltDB.BatchPut_loop_invalid ns ks vs ⟨b.db.buckets.store ns KV.empty⟩
            KV.empty (KV.store_same _ _ _) hinv
          rcases hr : boltDB.BatchPut.loop ns ks vs ⟨b.db.buckets.store ns KV.empty⟩ with
            ⟨tx2, _ | err⟩
          · rw [hr] at hl
            exact absurd rfl hl
          · simp
  refine ⟨hfail, ?_⟩
  cases he : (b.BatchPut ns ks vs).2 with
  | none => exact absurd he hfail
  | some e =>
    unfold boltDB.BatchPut boltDB.ofUpdate at he ⊢
    simp only at he ⊢
    rw [bolt.DB.Update_rollback _ _ e he]

/-- The sequence of durable `Put`s on a store where the bucket exists, when bolt accepts
the namespace and every pair. -/
theorem boltDB.putSequence_bucket (ns : Bytes) (hns : ns ≠ []) (ks : List Bytes) :
    ∀ (vs : List Bytes) (b : boltDB) (bkt : KV Bytes), b.db.buckets ns = some bkt →
      (∀ p ∈ ks.zip vs, bolt.validPair p.1 p.2) →
      b.putSequence ns ks vs = (⟨⟨b.db.buckets.store ns (KV.storeAll bkt ks vs)⟩⟩, none) := by
  induction ks with
  | nil =>
    intro vs b bkt hb _
    cases vs <;> simp [boltDB.putSequence, KV.storeAll, KV.store_self _ _ _ hb]
  | cons k ks ih =>
    intro vs b bkt hb hv
    cases vs with
    | nil => simp [boltDB.putSequence, KV.storeAll, KV.store_self _ _ _ hb]
    | cons v vs =>
      have hkv : bolt.validPair k v := hv (k, v) (by simp)
      have hrest : ∀ p ∈ ks.zip vs, bolt.validPair p.1 p.2 :=
        fun p hp => hv p (by simp [hp])
      have hk : k ≠ [] := by
        intro hc
        exact hkv.1 (by simp [hc])
      simp only [boltDB.putSequence, boltDB.Put_ok b ns k v hns hk hkv.2.1 hkv.2.2, hb,
        Option.getD_some]
      rw [ih vs _ (bkt.store k v) (KV.store_same _ _ _) hrest]
      simp only [KV.store_store, KV.storeAll]

/-- The sequence of durable `Put`s of a non-empty batch, when bolt accepts the namespace
and every pair. -/
theorem boltDB.putSequence_valid (b : boltDB) (ns : Bytes) (hns : ns ≠ []) (k v : Bytes)
    (ks vs : List Bytes) (hv : ∀ p ∈ (k :: ks).zip (v :: vs), bolt.validPair p.1 p.2) :
    b.putSequence ns (k :: ks) (v :: vs) =
      (⟨⟨b.db.buckets.store ns
          (KV.storeAll ((b.db.buckets ns).getD KV.empty) (k :: ks) (v :: vs))⟩⟩, none) := by
  have hkv : bolt.validPair k v := hv (k, v) (by simp)
  have hrest : ∀ p ∈ ks.zip vs, bolt.validPair p.1 p.2 :=
    fun p hp => hv p (by simp [hp])
  have hk : k ≠ [] := by
    intro hc
    exact hkv.1 (by simp [hc])
  simp only [boltDB.putSequence, boltDB.Put_ok b ns k v hns hk hkv.2.1 hkv.2.2]
  rw [boltDB.putSequence_bucket ns hns ks vs _ _ (KV.store_same _ _ _) hrest]
  simp only [KV.store_store, KV.storeAll]

/-- The claim C13 as the code has it, for lists of equal length. In-memory store:
`BatchPut` succeeds and leaves the store in the state reached by the single `Put`s in
index order, so the value at the last index of a key is the one read back. Durable store,
when bolt accepts the namespace and every pair: `BatchPut` succeeds, as the single `Put`s
do; for a non-empty batch it leaves the store in the state they reach; for every batch
the records are those they reach (an empty batch also creates the bucket, which no `Put`
does); and the value at the last index of a key is the one read back. Durable store, when
bolt refuses the namespace or a pair: `BatchPut` fails and leaves the store as it was. -/
theorem batchPut_is_put_sequence (m : memKVStore) (b : boltDB) (ns : Bytes)
    (ks vs : List Bytes) (hlen : ks.length = vs.length) :
    (m.BatchPut ns ks vs = (m.putSequence ns ks vs, none) ∧
      ∀ ks1 ks2 vs1 vs2 k v, ks = ks1 ++ k :: ks2 → vs = vs1 ++ v :: vs2 →
        ks1.length = vs1.length → k ∉ ks2 →
        (m.BatchPut ns ks vs).1.Get ns k = (some v, none)) ∧
    (ns ≠ [] → (∀ p ∈ ks.zip vs, bolt.validPair p.1 p.2) →
      (b.BatchPut ns ks vs).2 = none ∧ (b.putSequence ns ks vs).2 = none ∧
      (ks ≠ [] → b.BatchPut ns ks vs = b.putSequence ns ks vs) ∧
      (∀ ns2 k2, (b.BatchPut ns ks vs).1.lookup ns2 k2 =
        (b.putSequence ns ks vs).1.lookup ns2 k2) ∧
      ∀ ks1 ks2 vs1 vs2 k v, ks = ks1 ++ k :: ks2 → vs = vs1 ++ v :: vs2 →
        ks1.length = vs1.length → k ∉ ks2 →
        (b.BatchPut ns ks vs).1.Get ns k = (some v, none)) ∧
    (¬ (ns ≠ [] ∧ ∀ p ∈ ks.zip vs, bolt.validPair p.1 p.2) →
      (b.BatchPut ns ks vs).2 ≠ none ∧ (b.BatchPut ns ks vs).1 = b) := by
  have hnn : ¬ ks.length ≠ vs.length := by simpa using hlen
  have hmem : m.BatchPut ns ks vs = (m.putSequence ns ks vs, none) := by
    unfold memKVStore.BatchPut
    rw [if_neg hnn, memKVStore.BatchPut_loop_eq_putSequence]
  refine ⟨⟨hmem, ?_⟩, ?_, boltDB.BatchPut_invalid b ns ks vs⟩
  · intro ks1 ks2 vs1 vs2 k v hks hvs hl hk
    have hdata : (m.BatchPut ns ks vs).1.data (ns ++ keyDelimiter ++ k) = some v := by
      unfold memKVStore.BatchPut
      rw [if_neg hnn]
      simp only
      rw [memKVStore.BatchPut_loop_eq_storeAll, hks, hvs, List.map_append, List.map_cons]
      refine KV.storeAll_last _ _ _ _ _ _ _ (by simpa using hl) ?_
      intro hc
      rw [List.mem_map] at hc
      obtain ⟨a, ha, hfa⟩ := hc
      have hak : a = k := List.append_cancel_left hfa
      exact hk (hak ▸ ha)
    exact memKVStore.memGet_present _ ns k v hdata
  · intro hns hv
    have hB := boltDB.BatchPut_valid b ns ks vs hns hlen hv
    have hS : (b.putSequence ns ks vs).2 = none ∧
        (ks ≠ [] → b.BatchPut ns ks vs = b.putSequence ns ks vs) ∧
        (∀ ns2 k2, (b.BatchPut ns ks vs).1.lookup ns2 k2 =
          (b.putSequence ns ks vs).1.lookup ns2 k2) := by
      cases ks with
      | nil =>
        have hvs : vs = [] := by
          cases vs with
          | nil => rfl
          | cons v vs => simp at hlen
        subst hvs
        refine ⟨rfl, fun hc => absurd rfl hc, fun ns2 k2 => ?_⟩
        rw [hB]
        simp only [boltDB.putSequence, KV.storeAll, boltDB.lookup]
        by_cases h2 : ns2 = ns
        · subst h2
          cases hb : b.db.buckets ns2 <;> simp [KV.store_same, KV.empty]
        · rw [KV.store_other _ _ _ _ h2]
      | cons k ks =>
        cases vs with
        | nil => simp at hlen
        | cons v vs =>
          have hP := boltDB.putSequence_valid b ns hns k v ks vs hv
          refine ⟨by rw [hP], fun _ => by rw [hB, hP], fun ns2 k2 => by rw [hB, hP]⟩
    refine ⟨by rw [hB], hS.1, hS.2.1, hS.2.2, ?_⟩
    intro ks1 ks2 vs1 vs2 k v hks hvs hl hk
    rw [hB]
    refine boltDB.Get_present _ ns k v _ (KV.store_same _ _ _) ?_
    rw [hks, hvs]
    exact KV.storeAll_last _ _ _ _ _ _ _ hl hk

/-- Witness of C13: on a durable store that holds ("ns", "k"), the batch that writes
"j", then "k", then "j" again equals the three single writes, and "j" reads back the
value of its last index. -/
theorem batchPut_is_put_sequence_witness :
    (boltDB.NewBoltDB.Put [110, 115] [107] [1]).1.BatchPut [110, 115]
        [[106], [107], [106]] [[2], [3], [4]] =
      (boltDB.NewBoltDB.Put [110, 115] [107] [1]).1.putSequence [110, 115]
        [[106], [107], [106]] [[2], [3], [4]] ∧
    ((boltDB.NewBoltDB.Put [110, 115] [107] [1]).1.BatchPut [110, 115]
        [[106], [107], [106]] [[2], [3], [4]]).1.Get [110, 115] [106] = (some [4], none) :=
  have h := (batchPut_is_put_sequence memKVStore.NewMemKVStore
    (boltDB.NewBoltDB.Put [110, 115] [107] [1]).1 [110, 115]
    [[106], [107], [106]] [[2], [3], [4]] rfl).2.1 (by decide)
    (by
      intro p hp
      simp only [List.zip_cons_cons, List.zip_nil_right, List.mem_cons, List.mem_singleton,
        List.not_mem_nil, or_false] at hp
      rcases hp with hp | hp | hp <;> subst hp <;> exact ⟨by decide, by decide, by decide⟩)
  ⟨h.2.2.1 (by decide),
   h.2.2.2.2 [[106], [107]] [] [[2], [3]] [] [106] [4] rfl rfl rfl (by decide)⟩

/-- The claim C13 as stated fails on the durable store. With the keys "k" and the empty
key, of equal number with the values, `BatchPut` does not succeed: bolt refuses the
empty key, the whole batch is rolled back and "k" is not stored, while the sequence of
single `Put`s has stored "k" before it fails. And with the empty lists `BatchPut`
succeeds but creates the bucket, so that `Get("ns", "k")` no longer returns what it
returns after no `Put` at all. -/
theorem batchPut_rolls_back_where_puts_do_not :
    ([[107], []] : List Bytes).length = ([[1], [2]] : List Bytes).length ∧
    (boltDB.NewBoltDB.BatchPut [110, 115] [[107], []] [[1], [2]]).2 = some .ErrKeyRequired ∧
    (boltDB.NewBoltDB.BatchPut [110, 115] [[107], []] [[1], [2]]).1.Get [110, 115] [107] =
      (none, some (.Wrap .ErrBucketNotFound (.bucket [110, 115]))) ∧
    (boltDB.NewBoltDB.putSequence [110, 115] [[107], []] [[1], [2]]).1.Get [110, 115] [107] =
      (some [1], none) ∧
    (boltDB.NewBoltDB.BatchPut [110, 115] [] []).2 = none ∧
    (boltDB.NewBoltDB.BatchPut [110, 115] [] []).1.Get [110, 115] [107] =
      (none, some (.Wrap .ErrNotExist (.key [107]))) ∧
    (boltDB.NewBoltDB.putSequence [110, 115] [] []).1.Get [110, 115] [107] =
      (none, some (.Wrap .ErrBucketNotFound (.bucket [110, 115]))) := by
  decide

end db

/-! # Properties of blocks and of the chain manager -/

namespace blockchain

theorem toNat_ofNat_byte (n : Nat) : (UInt8.ofNat n).toNat = n % 256 := by
  simp [UInt8.ofNat, UInt8.toNat, Fin.ofNat]

theorem getUvarint_putUvarintAux (fuel : Nat) :
    ∀ (n : Nat) (rest : Bytes), n ≤ fuel →
      getUvarint (putUvarintAux fuel n ++ rest) = some (n, rest) := by
  induction fuel with
  | zero =>
    intro n rest hn
    have h0 : n = 0 := by omega
    subst h0
    simp [putUvarintAux, getUvarint, toNat_ofNat_byte]
  | succ fuel ih =>
    intro n rest hn
    by_cases hlt : n < 128
    · have hmod : n % 256 = n := by omega
      simp [putUvarintAux, getUvarint, toNat_ofNat_byte, hlt, hmod]
    · have hmod : (n % 128 + 128) % 256 = n % 128 + 128 := by omega
      have hrec := ih (n / 128) rest (by omega)
      have hge : ¬ (n % 128 + 128 < 128) := by omega
      simp only [putUvarintAux, hlt, if_false, List.cons_append, getUvarint, toNat_ofNat_byte,
        hmod, hge, hrec]
      have hsum : n % 128 + 128 - 128 + 128 * (n / 128) = n := by omega
      rw [hsum]

theorem getUvarint_putUvarint (n : Nat) (rest : Bytes) :
    getUvarint (putUvarint n ++ rest) = some (n, rest) :=
  getUvarint_putUvarintAux n n rest (Nat.le_refl n)

theorem getBytes_putBytes (bs rest : Bytes) :
    getBytes (putBytes bs ++ rest) = some (bs, rest) := by
  simp [getBytes, putBytes, List.append_assoc, getUvarint_putUvarint]

theorem getBool_putBool (b : Bool) (rest : Bytes) :
    getBool (putBool b ++ rest) = some (b, rest) := by
  cases b <;> simp [getBool, putBool]

theorem getItems_putItems {α : Type} (put : α → Bytes) (get : Bytes → Option (α × Bytes))
    (hget : ∀ x rest, get (put x ++ rest) = some (x, rest)) (xs : List α) (rest : Bytes) :
    getItems get xs.length (putItems put xs ++ rest) = some (xs, rest) := by
  induction xs with
  | nil => simp [getItems, putItems]
  | cons x xs ih => simp [getItems, putItems, List.append_assoc, hget, ih]

theorem getList_putList {α : Type} (put : α → Bytes) (get : Bytes → Option (α × Bytes))
    (hget : ∀ x rest, get (put x ++ rest) = some (x, rest)) (xs : List α) (rest : Bytes) :
    getList get (putList put xs ++ rest) = some (xs, rest) := by
  simp [getList, putList, List.append_assoc, getUvarint_putUvarint,
    getItems_putItems put get hget]

theorem Address.get_put_address (a : Address) (rest : Bytes) :
    Address.get (a.put ++ rest) = some (a, rest) := by
  simp [Address.get, Address.put, List.append_assoc, getBytes_putBytes]

theorem Transfer.get_put_transfer (t : Transfer) (rest : Bytes) :
    Transfer.get (t.put ++ rest) = some (t, rest) := by
  simp [Transfer.get, Transfer.put, List.append_assoc, getUvarint_putUvarint,
    getBytes_putBytes, getBool_putBool, Address.get_put_address]

theorem Vote.get_put_vote (v : Vote) (rest : Bytes) :
    Vote.get (v.put ++ rest) = some (v, rest) := by
  simp [Vote.get, Vote.put, List.append_assoc, getUvarint_putUvarint, getBytes_putBytes]

theorem Block.get_Serialize (b : Block) (rest : Bytes) :
    Block.get (b.Serialize ++ rest) = some (b, rest) := by
  simp [Block.get, Block.Serialize, List.append_assoc, getUvarint_putUvarint,
    getBytes_putBytes, getList_putList _ _ Transfer.get_put_transfer, getList_putList _ _ Vote.get_put_vote]

/-- Decoding the serialised form of a block gives the block back. -/
theorem Block.Deserialize_Serialize (b : Block) : Block.Deserialize b.Serialize = some b := by
  have h := Block.get_Serialize b []
  rw [List.append_nil] at h
  simp [Block.Deserialize, h]

/-- The claim C8: for every block `B` and every digest `H`, `Deserialize(Serialize(B))`
succeeds, and the block it yields has the block hash of `B` and the transaction root of
`B` (it is `B` itself, the round trip being exact). -/
theorem serialize_roundtrip (H : Bytes → Bytes) (B : Block) :
    ∃ B2, Block.Deserialize B.Serialize = some B2 ∧
      B2.HashBlock H = B.HashBlock H ∧ B2.TxRoot H = B.TxRoot H ∧ B2 = B :=
  ⟨B, Block.Deserialize_Serialize B, rfl, rfl, rfl⟩

/-- The claim C9: whatever the validator policy, `ValidateBlock` returns an error for a
block whose height is not the tip height plus one, or whose `prev_hash` is not the tip
hash, or whose `prev_hash` is the zero hash; the error is *InvalidBlock(height)* in the
first case and *InvalidBlock(prev_hash)* otherwise. -/
theorem validateBlock_rejects {σ : Type} (P : Config σ) (bc : blockchain σ) (blk : Block)
    (h : blk.height ≠ bc.TipHeight + 1 ∨ blk.prevHash ≠ bc.TipHash ∨
      blk.prevHash = ZeroHash32B) :
    ∃ err, bc.ValidateBlock P blk = some err ∧
      (blk.height ≠ bc.TipHeight + 1 → err = .InvalidBlock .height) ∧
      (blk.height = bc.TipHeight + 1 → err = .InvalidBlock .prev_hash) := by
  unfold blockchain.TipHeight blockchain.TipHash at *
  by_cases h1 : blk.height = bc.tipHeight + 1
  · by_cases h2 : blk.prevHash = bc.tipHash
    · have h3 : blk.prevHash = ZeroHash32B := by
        rcases h with h | h | h
        · exact absurd h1 h
        · exact absurd h2 h
        · exact h
      have h0 : blk.height ≠ 0 := by omega
      refine ⟨.InvalidBlock .prev_hash, ?_, fun hc => absurd h1 hc, fun _ => rfl⟩
      unfold blockchain.ValidateBlock
      rw [if_neg (by simpa using h1), if_neg (by simpa using h2), if_pos ⟨h0, h3⟩]
    · refine ⟨.InvalidBlock .prev_hash, ?_, fun hc => absurd h1 hc, fun _ => rfl⟩
      unfold blockchain.ValidateBlock
      rw [if_neg (by simpa using h1), if_pos h2]
  · refine ⟨.InvalidBlock .height, ?_, fun _ => rfl, fun hc => absurd hc h1⟩
    unfold blockchain.ValidateBlock
    rw [if_pos h1]

/-- Witness of C9: a chain manager with tip height 4 and a block of height 6. -/
theorem validateBlock_rejects_witness :
    ∃ err, (blockchain.mk db.boltDB.NewBoltDB 4 [7] () none).ValidateBlock
        (⟨id, 0, 0, [], [], fun _ => true, fun _ => true, fun _ => true,
          fun _ _ => none, fun s _ => some s, id⟩ : Config Unit)
        ⟨0, 6, 0, [7], [], [], [], [], [], []⟩ = some err ∧
      err = .InvalidBlock .height :=
  let ⟨err, h1, h2, _⟩ := validateBlock_rejects
    (⟨id, 0, 0, [], [], fun _ => true, fun _ => true, fun _ => true,
      fun _ _ => none, fun s _ => some s, id⟩ : Config Unit)
    (blockchain.mk db.boltDB.NewBoltDB 4 [7] () none)
    ⟨0, 6, 0, [7], [], [], [], [], [], []⟩ (Or.inl (by decide))
  ⟨err, h1, h2 (by decide)⟩

theorem length_putBigEndian (w n : Nat) : (putBigEndian w n).length = w := by
  induction w generalizing n with
  | zero => simp [putBigEndian]
  | succ w ih => simp [putBigEndian, ih]

theorem getBigEndian_snoc (bs : Bytes) (b : Byte) :
    getBigEndian (bs ++ [b]) = getBigEndian bs * 256 + b.toNat := by
  simp [getBigEndian, List.foldl_append]

theorem getBigEndian_putBigEndian (w n : Nat) :
    getBigEndian (putBigEndian w n) = n % 256 ^ w := by
  induction w generalizing n with
  | zero => simp [putBigEndian, getBigEndian, Nat.mod_one]
  | succ w ih =>
    have hm : n % 256 % 256 = n % 256 := by omega
    rw [putBigEndian, getBigEndian_snoc, ih, toNat_ofNat_byte, hm, Nat.pow_succ,
      Nat.mul_comm (256 ^ w) 256, Nat.mod_mul]
    omega

theorem getUint64_putUint64 (n : Nat) (h : n < 2 ^ 64) : getUint64 (putUint64 n) = some n := by
  have h8 : (256 : Nat) ^ 8 = 2 ^ 64 := by norm_num
  have hm : n % 2 ^ 64 = n := Nat.mod_eq_of_lt h
  unfold getUint64 putUint64
  rw [hm, if_pos (length_putBigEndian 8 n), getBigEndian_putBigEndian, h8, hm]

theorem putUint64_inj (a b : Nat) (ha : a < 2 ^ 64) (hb : b < 2 ^ 64)
    (h : putUint64 a = putUint64 b) : a = b := by
  have h1 := getUint64_putUint64 a ha
  rw [h, getUint64_putUint64 b hb] at h1
  exact (Option.some.inj h1).symm

/-- A successful write leaves the records of the other namespaces as they were. -/
theorem lookup_applyOp_other (kv kv2 : db.boltDB) (op : IndexOp)
    (h : applyOp kv op = (kv2, none)) (ns2 k2 : Bytes) (hns : ns2 ≠ op.ns) :
    kv2.lookup ns2 k2 = kv.lookup ns2 k2 := by
  cases op with
  | put ns key value =>
    simp only [applyOp] at h
    rw [db.boltDB.lookup_Put kv kv2 ns key value h ns2 k2]
    simp only [IndexOp.ns] at hns
    simp [hns]
  | append ns key item =>
    simp only [IndexOp.ns] at hns
    simp only [applyOp] at h
    split at h
    · rw [db.boltDB.lookup_Put kv kv2 ns key _ h ns2 k2]
      simp [hns]
    · rw [db.boltDB.lookup_Put kv kv2 ns key _ h ns2 k2]
      simp [hns]

theorem applyOps_cons_ok (kv kv2 : db.boltDB) (op : IndexOp) (ops : List IndexOp)
    (h : applyOps kv (op :: ops) = (kv2, none)) :
    ∃ kv1, applyOp kv op = (kv1, none) ∧ applyOps kv1 ops = (kv2, none) := by
  simp only [applyOps] at h
  split at h
  · rename_i kv1 heq
    exact ⟨kv1, heq, h⟩
  · simp at h

/-- A successful sequence of writes leaves the records of the namespaces it does not
write to as they were. -/
theorem lookup_applyOps_other (ops : List IndexOp) :
    ∀ (kv kv2 : db.boltDB), applyOps kv ops = (kv2, none) →
      ∀ (ns2 k2 : Bytes), (∀ op ∈ ops, ns2 ≠ op.ns) →
        kv2.lookup ns2 k2 = kv.lookup ns2 k2 := by
  induction ops with
  | nil =>
    intro kv kv2 h ns2 k2 _
    simp only [applyOps, Prod.mk.injEq, and_true] at h
    rw [h]
  | cons op ops ih =>
    intro kv kv2 h ns2 k2 hns
    obtain ⟨kv1, h1, h2⟩ := applyOps_cons_ok kv kv2 op ops h
    rw [ih kv1 kv2 h2 ns2 k2 (fun o ho => hns o (List.mem_cons_of_mem _ ho)),
      lookup_applyOp_other kv kv1 op h1 ns2 k2 (hns op (List.mem_cons_self _ _))]

/-- The namespaces of the action indexes are not those of the block log, of the two
height indexes or of the tip. -/
theorem actionOps_ns {σ : Type} (P : Config σ) (blk : Block) (op : IndexOp)
    (h : op ∈ (blk.Transfers.map (transferOps P.H (blk.HashBlock P.H))).flatten ++
      (blk.Votes.map (voteOps P.H P.addressOf (blk.HashBlock P.H))).flatten) :
    blockNS ≠ op.ns ∧ heightToHashNS ≠ op.ns ∧ hashToHeightNS ≠ op.ns ∧ metaNS ≠ op.ns := by
  have hA : blockNS ≠ actionToBlockNS ∧ heightToHashNS ≠ actionToBlockNS ∧
      hashToHeightNS ≠ actionToBlockNS ∧ metaNS ≠ actionToBlockNS := by decide
  have hF : ∀ a, blockNS ≠ fromNS a ∧ heightToHashNS ≠ fromNS a ∧
      hashToHeightNS ≠ fromNS a ∧ metaNS ≠ fromNS a := by
    intro a
    simp [blockNS, heightToHashNS, hashToHeightNS, metaNS, fromNS]
  have hT : ∀ a, blockNS ≠ toNS a ∧ heightToHashNS ≠ toNS a ∧
      hashToHeightNS ≠ toNS a ∧ metaNS ≠ toNS a := by
    intro a
    simp [blockNS, heightToHashNS, hashToHeightNS, metaNS, toNS]
  rw [List.mem_append] at h
  rcases h with h | h
  · rw [List.mem_flatten] at h
    obtain ⟨l, hl, hop⟩ := h
    rw [List.mem_map] at hl
    obtain ⟨t, _, rfl⟩ := hl
    simp only [transferOps, List.mem_append, List.mem_singleton] at hop
    rcases hop with (hop | hop) | hop
    · subst hop; exact hA
    · split at hop
      · simp at hop
      · rw [List.mem_singleton] at hop
        subst hop; exact hF _
    · subst hop; exact hT _
  · rw [List.mem_flatten] at h
    obtain ⟨l, hl, hop⟩ := h
    rw [List.mem_map] at hl
    obtain ⟨v, _, rfl⟩ := hl
    simp only [voteOps, List.mem_append, List.mem_cons, List.mem_singleton] at hop
    rcases hop with (hop | hop | hop) | hop
    · subst hop; exact hA
    · subst hop; exact hF _
    · simp at hop
    · split at hop
      · simp at hop
      · rw [List.mem_singleton] at hop
        subst hop; exact hT _

/-- The records of the block log, of the two height indexes and of the tip after the
writes of step 3. -/
theorem lookup_blockOps {σ : Type} (P : Config σ) (blk : Block) (kv kv2 : db.boltDB)
    (h : applyOps kv (blockOps P blk) = (kv2, none)) :
    (∀ k, kv2.lookup blockNS k =
      if k = blk.HashBlock P.H then some blk.Serialize else kv.lookup blockNS k) ∧
    (∀ k, kv2.lookup heightToHashNS k =
      if k = putUint64 blk.height then some (blk.HashBlock P.H)
      else kv.lookup heightToHashNS k) ∧
    (∀ k, kv2.lookup hashToHeightNS k =
      if k = blk.HashBlock P.H then some (putUint64 blk.height)
      else kv.lookup hashToHeightNS k) ∧
    (∀ k, kv2.lookup metaNS k = kv.lookup metaNS k) := by
  unfold blockOps at h
  simp only [List.cons_append, List.nil_append, List.append_assoc] at h
  obtain ⟨kva, ha, h⟩ := applyOps_cons_ok _ _ _ _ h
  obtain ⟨kvb, hb, h⟩ := applyOps_cons_ok _ _ _ _ h
  obtain ⟨kvc, hc, h⟩ := applyOps_cons_ok _ _ _ _ h
  simp only [applyOp] at ha hb hc
  have hrest := lookup_applyOps_other _ kvc kv2 h
  have hns := actionOps_ns P blk
  have hd : blockNS ≠ heightToHashNS ∧ blockNS ≠ hashToHeightNS ∧ blockNS ≠ metaNS ∧
      heightToHashNS ≠ hashToHeightNS ∧ heightToHashNS ≠ metaNS ∧ hashToHeightNS ≠ metaNS := by
    decide
  obtain ⟨d1, d2, d3, d4, d5, d6⟩ := hd
  refine ⟨fun k => ?_, fun k => ?_, fun k => ?_, fun k => ?_⟩
  · rw [hrest blockNS k (fun op hop => (hns op hop).1),
      db.boltDB.lookup_Put _ _ _ _ _ hc, db.boltDB.lookup_Put _ _ _ _ _ hb,
      db.boltDB.lookup_Put _ _ _ _ _ ha]
    simp [d1, d2]
  · rw [hrest heightToHashNS k (fun op hop => (hns op hop).2.1),
      db.boltDB.lookup_Put _ _ _ _ _ hc, db.boltDB.lookup_Put _ _ _ _ _ hb,
      db.boltDB.lookup_Put _ _ _ _ _ ha]
    simp [d1.symm, d4]
  · rw [hrest hashToHeightNS k (fun op hop => (hns op hop).2.2.1),
      db.boltDB.lookup_Put _ _ _ _ _ hc, db.boltDB.lookup_Put _ _ _ _ _ hb,
      db.boltDB.lookup_Put _ _ _ _ _ ha]
    simp [d2.symm, d4.symm]
  · rw [hrest metaNS k (fun op hop => (hns op hop).2.2.2),
      db.boltDB.lookup_Put _ _ _ _ _ hc, db.boltDB.lookup_Put _ _ _ _ _ hb,
      db.boltDB.lookup_Put _ _ _ _ _ ha]
    simp [d3.symm, d5.symm, d6.symm]

/-- The records after the writes of step 5: the tip under `meta`, the other namespaces
as they were. -/
theorem lookup_tipOps {σ : Type} (P : Config σ) (blk : Block) (kv kv2 : db.boltDB)
    (h : applyOps kv (tipOps P blk) = (kv2, none)) :
    kv2.lookup metaNS tipHeightKey = some (putUint64 blk.height) ∧
    kv2.lookup metaNS tipHashKey = some (blk.HashBlock P.H) ∧
    (∀ ns k, ns ≠ metaNS → kv2.lookup ns k = kv.lookup ns k) := by
  unfold tipOps at h
  obtain ⟨kva, ha, h⟩ := applyOps_cons_ok _ _ _ _ h
  obtain ⟨kvb, hb, h⟩ := applyOps_cons_ok _ _ _ _ h
  simp only [applyOps, Prod.mk.injEq, and_true] at h
  subst h
  simp only [applyOp] at ha hb
  have hk : tipHeightKey ≠ tipHashKey := by decide
  refine ⟨?_, ?_, fun ns k hns => ?_⟩
  · rw [db.boltDB.lookup_Put _ _ _ _ _ hb, db.boltDB.lookup_Put _ _ _ _ _ ha]
    simp [hk]
  · rw [db.boltDB.lookup_Put _ _ _ _ _ hb]
    simp
  · rw [db.boltDB.lookup_Put _ _ _ _ _ hb, db.boltDB.lookup_Put _ _ _ _ _ ha]
    simp [hns]

/-- The two outcomes of steps 2 to 5: all the writes done and the tip advanced, or the
chain manager as it was. -/
theorem writeBlock_cases {σ : Type} (P : Config σ) (bc : blockchain σ) (blk : Block) :
    (∃ kv2 kv3 sf2, applyOps bc.kv (blockOps P blk) = (kv2, none) ∧
      applyOps kv2 (tipOps P blk) = (kv3, none) ∧
      bc.writeBlock P blk =
        (⟨kv3, blk.height, blk.HashBlock P.H, sf2, bc.validator⟩, none)) ∨
    (∃ err, bc.writeBlock P blk = (bc, some err)) := by
  unfold blockchain.writeBlock
  rcases h1 : applyOps bc.kv (blockOps P blk) with ⟨kv2, _ | err⟩
  · dsimp only
    cases h2 : P.applyBlock bc.sf blk with
    | none => exact Or.inr ⟨_, rfl⟩
    | some sf2 =>
      dsimp only
      rcases h3 : applyOps kv2 (tipOps P blk) with ⟨kv3, _ | err⟩
      · exact Or.inl ⟨kv2, kv3, sf2, rfl, h3, rfl⟩
      · exact Or.inr ⟨_, rfl⟩
  · exact Or.inr ⟨_, rfl⟩

/-- The step of the invariant: writing a block whose height is new and whose hash is not
in the `hash → height` index keeps every committed height indexed, and indexes the new
one. -/
theorem Indexed_writeBlock {σ : Type} (P : Config σ) (bc bc2 : blockchain σ) (blk : Block)
    (hw : bc.writeBlock P blk = (bc2, none)) (hv : bc.validator = none)
    (hlt : blk.height < 2 ^ 64)
    (hold : ∀ h, h < blk.height → ∃ b : Block,
      bc.kv.lookup heightToHashNS (putUint64 h) = some (b.HashBlock P.H) ∧
      bc.kv.lookup hashToHeightNS (b.HashBlock P.H) = some (putUint64 h) ∧
      bc.kv.lookup blockNS (b.HashBlock P.H) = some b.Serialize)
    (hnew : bc.kv.lookup hashToHeightNS (blk.HashBlock P.H) = none) :
    blockchain.Indexed P bc2 := by
  rcases writeBlock_cases P bc blk with ⟨kv2, kv3, sf2, h1, h2, h3⟩ | ⟨err, h3⟩
  · rw [h3] at hw
    have hbc : bc2 = ⟨kv3, blk.height, blk.HashBlock P.H, sf2, bc.validator⟩ :=
      (Prod.mk.inj hw).1.symm
    subst hbc
    obtain ⟨b1, b2, b3, _⟩ := lookup_blockOps P blk bc.kv kv2 h1
    obtain ⟨t1, t2, t3⟩ := lookup_tipOps P blk kv2 kv3 h2
    have hd : blockNS ≠ metaNS ∧ heightToHashNS ≠ metaNS ∧ hashToHeightNS ≠ metaNS := by
      decide
    refine ⟨hv, hlt, t1, t2, fun h hh => ?_⟩
    simp only at hh
    by_cases heq : h = blk.height
    · subst heq
      refine ⟨blk, ?_, ?_, ?_⟩
      · rw [t3 _ _ hd.2.1, b2]; simp
      · rw [t3 _ _ hd.2.2, b3]; simp
      · rw [t3 _ _ hd.1, b1]; simp
    · have hlt2 : h < blk.height := by omega
      obtain ⟨b, o1, o2, o3⟩ := hold h hlt2
      have hne : b.HashBlock P.H ≠ blk.HashBlock P.H := by
        intro hc
        rw [hc, hnew] at o2
        simp at o2
      have hkey : putUint64 h ≠ putUint64 blk.height := by
        intro hc
        exact heq (putUint64_inj h blk.height (by omega) hlt hc)
      refine ⟨b, ?_, ?_, ?_⟩
      · rw [t3 _ _ hd.2.1, b2, if_neg hkey]; exact o1
      · rw [t3 _ _ hd.2.2, b3, if_neg hne]; exact o2
      · rw [t3 _ _ hd.1, b1, if_neg hne]; exact o3
  · rw [h3] at hw
    simp at hw

/-- A chain manager that satisfies the invariant is reopened from its store with the
same tip. -/
theorem CreateBlockchain_reopen {σ : Type} (P : Config σ) (bc : blockchain σ)
    (hI : blockchain.Indexed P bc) :
    CreateBlockchain P bc.kv bc.sf = some ⟨bc.kv, bc.tipHeight, bc.tipHash, bc.sf, none⟩ := by
  obtain ⟨_, hlt, m1, m2, _⟩ := hI
  have g1 := db.boltDB.Get_eq_lookup bc.kv metaNS tipHeightKey _ m1
  have g2 := db.boltDB.Get_eq_lookup bc.kv metaNS tipHashKey _ m2
  unfold CreateBlockchain
  rw [g1]
  dsimp only
  rw [getUint64_putUint64 _ hlt, g2]

/-- Every chain manager in the life of a chain satisfies the invariant. -/
theorem Reachable_Indexed {σ : Type} (P : Config σ) (bc : blockchain σ)
    (hr : Reachable P bc) : blockchain.Indexed P bc := by
  induction hr with
  | create sf bc hc =>
    unfold CreateBlockchain at hc
    rw [db.boltDB.Get_no_bucket db.boltDB.NewBoltDB metaNS tipHeightKey rfl] at hc
    dsimp only at hc
    split at hc
    · rename_i bc3 hw
      have hbc : bc3 = bc := Option.some.inj hc
      subst hbc
      refine Indexed_writeBlock P _ bc3 (Genesis P) hw rfl (by simp [Genesis]) ?_ rfl
      intro h hh
      simp [Genesis] at hh
    · simp at hc
  | commit bc blk _ hlt ih =>
    unfold blockchain.CommitBlock
    cases hvb : bc.ValidateBlock P blk with
    | some err => exact ih
    | none =>
      dsimp only
      rcases writeBlock_cases P bc blk with ⟨kv2, kv3, sf2, _, _, h3⟩ | ⟨err, h3⟩
      · obtain ⟨iv, _, _, _, iold⟩ := ih
        unfold blockchain.ValidateBlock at hvb
        split_ifs at hvb with c1 c2 c3 c4
        rw [iv] at hvb
        dsimp only at hvb
        unfold defaultValidate at hvb
        split_ifs at hvb with e1 e2 e3
        split at hvb
        · simp at hvb
        · split at hvb
          · simp at hvb
          · rename_i hnew
            have hheight : blk.height = bc.tipHeight + 1 := by
              by_contra hc
              exact c1 hc
            rw [h3]
            refine Indexed_writeBlock P bc _ blk h3 iv hlt ?_ hnew
            intro h hh
            exact iold h (by omega)
      · rw [h3]
        exact ih
  | reopen bc bc2 _ hc ih =>
    rw [CreateBlockchain_reopen P bc ih] at hc
    have hbc := Option.some.inj hc
    subst hbc
    have iv : bc.validator = none := ih.1
    cases bc
    simp only at iv
    subst iv
    exact ih

/-- What the queries return on a chain manager that satisfies the invariant. -/
theorem Indexed_queries {σ : Type} (P : Config σ) (hH : ∀ x, P.H x ≠ ZeroHash32B)
    (bc : blockchain σ) (hI : blockchain.Indexed P bc) (h : Nat) (hh : h ≤ bc.tipHeight) :
    ∃ hash blk, bc.GetHashByHeight h = .ok hash ∧ bc.GetHeightByHash hash = .ok h ∧
      bc.GetBlockByHash hash = .ok blk ∧ blk.HashBlock P.H = hash := by
  obtain ⟨_, hlt, _, _, hidx⟩ := hI
  obtain ⟨blk, l1, l2, l3⟩ := hidx h hh
  have g1 := db.boltDB.Get_eq_lookup bc.kv _ _ _ l1
  have g2 := db.boltDB.Get_eq_lookup bc.kv _ _ _ l2
  have g3 := db.boltDB.Get_eq_lookup bc.kv _ _ _ l3
  refine ⟨blk.HashBlock P.H, blk, ?_, ?_, ?_, rfl⟩
  · unfold blockchain.GetHashByHeight
    rw [g1]
  · unfold blockchain.GetHeightByHash
    rw [g2]
    dsimp only
    rw [getUint64_putUint64 h (by omega)]
  · have hz : blk.HashBlock P.H ≠ ZeroHash32B := hH _
    unfold blockchain.GetBlockByHash
    rw [if_neg hz, g3]
    dsimp only
    rw [Block.Deserialize_Serialize]

/-- The claim C10: in every chain manager that the life of a chain with the default
validator goes through (first open, commits, close and reopen), and for a digest that
never returns the zero hash, every height `h` up to the tip has a hash; the height
recorded for that hash is `h`; and the block stored under that hash has that hash. The
chain manager reopened from the store has the same tip and answers the same. -/
theorem index_inverse {σ : Type} (P : Config σ) (hH : ∀ x, P.H x ≠ ZeroHash32B)
    (bc : blockchain σ) (hr : Reachable P bc) (h : Nat) (hh : h ≤ bc.TipHeight) :
    (∃ hash blk, bc.GetHashByHeight h = .ok hash ∧ bc.GetHeightByHash hash = .ok h ∧
      bc.GetBlockByHash hash = .ok blk ∧ blk.HashBlock P.H = hash) ∧
    (∃ bc2, CreateBlockchain P bc.kv bc.sf = some bc2 ∧
      bc2.TipHeight = bc.TipHeight ∧ bc2.TipHash = bc.TipHash ∧
      ∃ hash blk, bc2.GetHashByHeight h = .ok hash ∧ bc2.GetHeightByHash hash = .ok h ∧
        bc2.GetBlockByHash hash = .ok blk ∧ blk.HashBlock P.H = hash) := by
  have hI := Reachable_Indexed P bc hr
  have hre := CreateBlockchain_reopen P bc hI
  refine ⟨Indexed_queries P hH bc hI h hh, _, hre, rfl, rfl, ?_⟩
  exact Indexed_queries P hH _ (Reachable_Indexed P _ (Reachable.reopen bc _ hr hre)) h hh

set_option maxRecDepth 100000 in
/-- Witness of C10: the example chain after its first open and the commit of the example
block, queried at height 1. -/
theorem index_inverse_witness :
    ∃ hash blk,
      (exampleGenesisChain.CommitBlock exampleConfig exampleBlock).1.GetHashByHeight 1 =
        .ok hash ∧
      (exampleGenesisChain.CommitBlock exampleConfig exampleBlock).1.GetHeightByHash hash =
        .ok 1 ∧
      (exampleGenesisChain.CommitBlock exampleConfig exampleBlock).1.GetBlockByHash hash =
        .ok blk ∧
      blk.HashBlock exampleConfig.H = hash :=
  (index_inverse exampleConfig (fun x => by simp [exampleConfig, ZeroHash32B])
    (exampleGenesisChain.CommitBlock exampleConfig exampleBlock).1
    (Reachable.commit exampleGenesisChain exampleBlock
      (Reachable.create 0 exampleGenesisChain rfl) (by simp [exampleBlock]))
    1 (by decide)).1

end blockchain

/-! # Properties of the simulator -/

namespace simulator

/-- The claim C11: for every wrapped validator, block, tip height and tip hash,
`byzVal.Validate` returns `nil`, whatever the wrapped validator returns on the same
arguments. -/
theorem byzVal_always_succeeds (v : byzVal) (blk : blockchain.Block) (tipHeight : Nat)
    (tipHash : Bytes) : v.Validate blk tipHeight tipHash = none :=
  rfl

/-- The claim C12 fails where the wrapped validator accepts: with a wrapped validator
that returns `nil` on every block, `byzVal.Validate` returns `nil` too on the example
block, not an error; so "an error if and only if the wrapped validator returns no error"
does not hold there. -/
theorem byzVal_not_the_opposite :
    (byzVal.mk (fun _ _ _ => none)).val blockchain.exampleBlock 0 [] = none ∧
    (byzVal.mk (fun _ _ _ => none)).Validate blockchain.exampleBlock 0 [] = none ∧
    ¬ ((byzVal.mk (fun _ _ _ => none)).Validate blockchain.exampleBlock 0 [] ≠ none ↔
        (byzVal.mk (fun _ _ _ => none)).val blockchain.exampleBlock 0 [] = none) :=
  ⟨rfl, rfl, fun h => h.mpr rfl rfl⟩

end simulator

/-! # Properties of the command-line client -/

namespace cmd

theorem transfers_loop_eq {α : Type} (format : α → Bytes) (ts : List α) :
    ∀ res : Bytes, transfers.loop format ts res =
      res ++ (ts.map fun t => format t ++ [10]).flatten := by
  induction ts with
  | nil => intro res; simp [transfers.loop]
  | cons t ts ih => intro res; simp [transfers.loop, ih, List.append_assoc]

theorem flatten_lines_eq_joinLines {α : Type} (format : α → Bytes) (ts : List α) :
    ∀ t : α, ((t :: ts).map fun t => format t ++ [10]).flatten =
      joinLines ((t :: ts).map format) ++ [10] := by
  induction ts with
  | nil => intro t; simp [joinLines]
  | cons u us ih =>
    intro t
    have h := ih u
    simp only [List.map_cons, List.flatten_cons] at h ⊢
    rw [h]
    simp [joinLines, List.append_assoc]

theorem sliceTo_drop_newline (x : Bytes) :
    sliceTo (x ++ [10]) (((x ++ [10]).length : Int) - 1) = some x := by
  have hlen : (((x ++ [10]).length : Int) - 1) = (x.length : Int) := by
    simp
  rw [hlen]
  unfold sliceTo
  have hb : (0 : Int) ≤ (x.length : Int) ∧ (x.length : Int) ≤ ((x ++ [10]).length : Int) := by
    constructor
    · exact Int.ofNat_nonneg _
    · simp
  rw [if_pos hb]
  simp

/-- With at least one transfer returned and no error, `transfers` returns the formatted
lines joined by the newline, without a newline at the end. -/
theorem transfers_nonempty {α ε : Type}
    (client : Bytes → Int → Int → List α × Option ε) (format : α → Bytes) (limit : Int)
    (addr : Bytes) (rest : List Bytes) (t : α) (ts : List α)
    (h : client addr 0 limit = (t :: ts, none)) :
    transfers client format limit (addr :: rest) = some (joinLines ((t :: ts).map format)) := by
  unfold transfers
  simp only [h]
  rw [transfers_loop_eq, List.nil_append, flatten_lines_eq_joinLines]
  exact sliceTo_drop_newline _

/-- When the client returns an error, `transfers` returns the empty string. -/
theorem transfers_client_error {α ε : Type}
    (client : Bytes → Int → Int → List α × Option ε) (format : α → Bytes) (limit : Int)
    (addr : Bytes) (rest : List Bytes) (ts : List α) (err : ε)
    (h : client addr 0 limit = (ts, some err)) :
    transfers client format limit (addr :: rest) = some [] := by
  unfold transfers
  simp only [h]

/-- The claim C15 fails at the empty list: when the client returns no transfer and no
error for the address "a", `res` is the empty string, the bound `len(res)-1` is -1, and
the slice `res[:len(res)-1]` is out of range: `transfers` panics instead of returning the
empty string. With one transfer it returns its line without the newline. -/
theorem transfers_empty_list_panics :
    sliceTo [] (((([] : Bytes).length : Int)) - 1) = none ∧
    transfers (fun _ _ _ => (([] : List Bytes), (none : Option Unit))) id 1000000000 [[97]] =
      none ∧
    transfers (fun _ _ _ => (([[120, 121]] : List Bytes), (none : Option Unit))) id
      1000000000 [[97]] = some [120, 121] := by
  decide

end cmd

end IotexCore
